import Mathlib

/-!
# dbus-cxx: address parsing, transport bootstrap and bulk extraction

A shallow embedding of `dbus-cxx/transport.cpp` (`parseTransports`,
`Transport::open_transport`) and of the template conversions of
`dbus-cxx/variantiterator.h`, followed by the properties proved about them.

Conventions of the embedding:

* a `std::string` is a `List Char` (one list element per C++ `char`);
* a `std::map<std::string,std::string>` is the list of its (key, value)
  entries in iteration order, that is strictly ascending in the key;
* the mutable local variables of a loop become the fields of a structure that
  is threaded through the loop body;
* collaborators whose code is outside the two files (the socket system calls,
  `SimpleTransport::create`, `SASL::authenticate`, the non-template members of
  `VariantIterator`) are parameters acting on an explicit world or cursor
  state.
-/

namespace DBus

/-- A `std::string`: the sequence of its characters. -/
abbrev Str := List Char

/-- A `std::map<K,D>`: its entries in iteration order, that is strictly
ascending in the key. -/
abbrev StdMap (K D : Type) := List (K × D)

namespace StdMap

variable {K D : Type} [LinearOrder K]

/-- The assignment `m[ k ] = v` of `std::map`: the entry with key `k` is
overwritten when there is one, otherwise a new entry is inserted at the place
that the ascending key order gives it. -/
def set (k : K) (v : D) : StdMap K D → StdMap K D
  | [] => [(k, v)]
  | (k', v') :: m =>
    if k = k' then (k, v) :: m
    else if k < k' then (k, v) :: (k', v') :: m
    else (k', v') :: set k v m

/-- The lookup `m.find( k )` of `std::map`: the value stored under `k`, if any. -/
def find (k : K) : StdMap K D → Option D
  | [] => none
  | (k', v') :: m => if k = k' then some v' else find k m

/-- The keys of a map, in iteration order. -/
def keys (m : StdMap K D) : List K :=
  m.map Prod.fst

/-- The map obtained from the empty one by the assignments `m[ k ] = v` for the
given pairs, from left to right. -/
def ofPairs (ps : List (K × D)) : StdMap K D :=
  ps.foldl (fun m p => set p.1 p.2 m) []

/-- The keys of the map are strictly ascending. -/
def Sorted (m : StdMap K D) : Prop :=
  (keys m).Pairwise (· < ·)

end StdMap

/-- A `std::map<std::string,std::string>`; strings are ordered
lexicographically by their characters. -/
abbrev Config := StdMap Str Str

/-- The rvalue read `m[ k ]` of `std::map` on a private copy: the stored value,
or the default-constructed (empty) string when the key is absent. -/
def Config.valueAt (m : Config) (k : Str) : Str :=
  (StdMap.find k m).getD []

/-- The class `ParsedTransport` of transport.cpp. -/
structure ParsedTransport where
  m_transportName : Str
  m_config : Config
deriving DecidableEq, Repr

/-- The enumeration `ParsingState` of transport.cpp. -/
inductive ParsingState where
  | Parsing_Transport_Name
  | Parsing_Key
  | Parsing_Value
deriving DecidableEq, Repr

/-- The local variables of `parseTransports`.  The scratch record
`tmpTransport` is left out: both of its members are overwritten right before
each `push_back`, so it carries nothing from one use to the next. -/
structure ParserVars where
  tmpTransportName : Str
  tmpKey : Str
  tmpValue : Str
  tmpConfig : Config
  retval : List ParsedTransport
  state : ParsingState
deriving DecidableEq, Repr

/-- The variables of `parseTransports` on entry to its loop. -/
def ParserVars.initial : ParserVars :=
  { tmpTransportName := [], tmpKey := [], tmpValue := [], tmpConfig := [],
    retval := [], state := ParsingState.Parsing_Transport_Name }

/-- One iteration of the loop `for( const char& c : address_str )` of
`parseTransports`.  The three `if( state == ... )` blocks of the body are
exclusive: `state` is only assigned immediately before a `continue`, so the
block selected on entry is the only one that runs. -/
def parseStep (p : ParserVars) (c : Char) : ParserVars :=
  match p.state with
  | ParsingState.Parsing_Transport_Name =>
    if c = ':' then { p with state := ParsingState.Parsing_Key }
    else { p with tmpTransportName := p.tmpTransportName ++ [c] }
  | ParsingState.Parsing_Key =>
    if c = '=' then { p with state := ParsingState.Parsing_Value }
    else { p with tmpKey := p.tmpKey ++ [c] }
  | ParsingState.Parsing_Value =>
    if c = ',' then
      { p with state := ParsingState.Parsing_Key,
               tmpConfig := StdMap.set p.tmpKey p.tmpValue p.tmpConfig,
               tmpKey := [], tmpValue := [] }
    else if c = ';' then
      { state := ParsingState.Parsing_Transport_Name,
        retval := p.retval ++
          [{ m_transportName := p.tmpTransportName,
             m_config := StdMap.set p.tmpKey p.tmpValue p.tmpConfig }],
        tmpKey := [], tmpValue := [], tmpConfig := [], tmpTransportName := [] }
    else { p with tmpValue := p.tmpValue ++ [c] }

/-- The statements of `parseTransports` after its loop: the pending pair is
stored, and a last record is pushed when a transport name was collected. -/
def parseFinish (p : ParserVars) : List ParsedTransport :=
  let tmpConfig := StdMap.set p.tmpKey p.tmpValue p.tmpConfig
  if p.tmpTransportName ≠ [] then
    p.retval ++ [{ m_transportName := p.tmpTransportName, m_config := tmpConfig }]
  else p.retval

/-- The function `parseTransports` of transport.cpp. -/
def parseTransports (address_str : Str) : List ParsedTransport :=
  parseFinish (address_str.foldl parseStep ParserVars.initial)

/-- A parser state between two segments: nothing collected, `r` returned so far. -/
def ParserVars.fresh (r : List ParsedTransport) : ParserVars :=
  { tmpTransportName := [], tmpKey := [], tmpValue := [], tmpConfig := [],
    retval := r, state := ParsingState.Parsing_Transport_Name }

/-- The parser state `p` with the records `r` put in front of those returned so far. -/
def ParserVars.prepend (r : List ParsedTransport) (p : ParserVars) : ParserVars :=
  { p with retval := r ++ p.retval }

/-! ## The address grammar and its rendering -/

/-- One segment `<transport>:<key>=<value>(,<key>=<value>)*` of the address
grammar: a transport name and the key/value pairs as written. -/
structure Segment where
  name : Str
  pairs : List (Str × Str)
deriving DecidableEq, Repr

/-- The strings of a list written one after the other with `sep` between
neighbours. -/
def joinWith (sep : Char) : List Str → Str
  | [] => []
  | [x] => x
  | x :: y :: r => x ++ sep :: joinWith sep (y :: r)

/-- A pair written `k=v`. -/
def renderPair (p : Str × Str) : Str :=
  p.1 ++ '=' :: p.2

/-- Pairs written `k=v` and joined by `,`. -/
def renderPairs (ps : List (Str × Str)) : Str :=
  joinWith ',' (ps.map renderPair)

/-- A segment written as its name, `:`, and its pairs. -/
def renderSegment (g : Segment) : Str :=
  g.name ++ ':' :: renderPairs g.pairs

/-- Segments joined by `;`. -/
def renderAddress (gs : List Segment) : Str :=
  joinWith ';' (gs.map renderSegment)

/-- The character conditions under which the scan of a segment follows the
grammar: the name has no `:`, there is at least one pair, no key has `=`, no
value has `,` or `;`. -/
def Segment.Scannable (g : Segment) : Prop :=
  ':' ∉ g.name ∧ g.pairs ≠ [] ∧
    ∀ p ∈ g.pairs, '=' ∉ p.1 ∧ ',' ∉ p.2 ∧ ';' ∉ p.2

/-- A segment of the address grammar: the transport name is non-empty and free
of `:` and `;`, there is at least one pair, keys are free of `=`, `,` and `;`,
values are free of `,` and `;`. -/
def Segment.Conforms (g : Segment) : Prop :=
  g.name ≠ [] ∧ ':' ∉ g.name ∧ ';' ∉ g.name ∧ g.pairs ≠ [] ∧
    ∀ p ∈ g.pairs, ('=' ∉ p.1 ∧ ',' ∉ p.1 ∧ ';' ∉ p.1) ∧ (',' ∉ p.2 ∧ ';' ∉ p.2)

instance (g : Segment) : Decidable g.Scannable := by
  unfold Segment.Scannable; infer_instance

instance (g : Segment) : Decidable g.Conforms := by
  unfold Segment.Conforms; infer_instance

/-- An address string of the grammar
`<transport>:<key>=<value>(,<key>=<value>)*(;<transport>:<key>=<value>...)*`:
the rendering of a non-empty list of conforming segments. -/
def Conforms (s : Str) : Prop :=
  ∃ gs : List Segment, gs ≠ [] ∧ (∀ g ∈ gs, g.Conforms) ∧ s = renderAddress gs

/-- The records that the grammar assigns to a list of segments: one per
segment, in order, its pairs stored from left to right. -/
def records (gs : List Segment) : List ParsedTransport :=
  gs.map fun g => { m_transportName := g.name, m_config := StdMap.ofPairs g.pairs }

/-- The serialization of a list of records: each record as its name, `:`, and
its option pairs in the iteration order of the map written `k=v` and joined by
`,`; the records joined by `;`. -/
def serialize (ts : List ParsedTransport) : Str :=
  renderAddress (ts.map fun t => { name := t.m_transportName, pairs := t.m_config })

/-! ## Opening a transport -/

/-- What `open_transport` uses of a `Transport` object: the result of `fd()`,
the result of `is_valid()`, and the member `m_serverAddress`. -/
structure Transport where
  fd : Int
  is_valid : Bool
  m_serverAddress : List Nat
deriving DecidableEq, Repr

/-- The collaborators of transport.cpp, acting on a world state `σ`: the system
calls of `open_unix_socket`, `SimpleTransport::create( fd, true )`, and
`SASL( fd, negotiateFD ).authenticate()`, whose result is the tuple
(success, fd passing agreed, server address). -/
structure Sys (σ : Type) where
  socket : σ → Int × σ
  connect : Int → Str → σ → Int × σ
  setsockopt : Int → σ → Int × σ
  fcntl : Int → σ → σ
  create : Int → σ → Transport × σ
  authenticate : Int → Bool → σ → (Bool × Bool × List Nat) × σ

/-- The function `open_unix_socket` of transport.cpp: the descriptor, or the
negative result of the call that failed.  The debug log lines are left out. -/
def open_unix_socket {σ : Type} (sys : Sys σ) (socketAddress : Str) (w : σ) : Int × σ :=
  let (fd, w1) := sys.socket w
  if fd < 0 then (fd, w1)
  else
    let (stat, w2) := sys.connect fd socketAddress w1
    if stat < 0 then (stat, w2)
    else
      let (stat, w3) := sys.setsockopt fd w2
      if stat < 0 then (stat, w3)
      else (fd, sys.fcntl fd w3)

/-- The calls that `open_transport` makes, with their results. -/
inductive Event where
  | open_unix_socket (path : Str) (fd : Int)
  | create (fd : Int) (t : Transport)
  | authenticate (fd : Int) (negotiateFD : Bool) (success : Bool)
deriving DecidableEq, Repr

/-- The local variables `retTransport` and `negotiateFD` of `open_transport`,
the world state, and the calls made so far. -/
structure LoopVars (σ : Type) where
  retTransport : Option Transport
  negotiateFD : Bool
  world : σ
  log : List Event

/-- The variables of `open_transport` on entry to its loop. -/
def LoopVars.initial {σ : Type} (w : σ) : LoopVars σ :=
  { retTransport := none, negotiateFD := false, world := w, log := [] }

/-- The loop `for( ParsedTransport param : transports )` of `open_transport`:
the variables when the loop is left, by `break` or at the end of the list. -/
def tryTransports {σ : Type} (sys : Sys σ) : List ParsedTransport → LoopVars σ → LoopVars σ
  | [], v => v
  | param :: rest, v =>
    if param.m_transportName = ['u', 'n', 'i', 'x'] then
      let path := Config.valueAt param.m_config ['p', 'a', 't', 'h']
      if path ≠ [] then
        let (fd, w1) := open_unix_socket sys path v.world
        let log1 := v.log ++ [Event.open_unix_socket path fd]
        if 0 ≤ fd then
          let (t, w2) := sys.create fd w1
          let log2 := log1 ++ [Event.create fd t]
          if !t.is_valid then
            tryTransports sys rest
              { retTransport := none, negotiateFD := v.negotiateFD, world := w2, log := log2 }
          else
            { retTransport := some t, negotiateFD := true, world := w2, log := log2 }
        else tryTransports sys rest { v with world := w1, log := log1 }
      else tryTransports sys rest v
    else tryTransports sys rest v

/-- The loop variables with the calls `l` put in front of the log. -/
def LoopVars.withLogPrefix {σ : Type} (l : List Event) (v : LoopVars σ) : LoopVars σ :=
  { v with log := l ++ v.log }

/-- What a call of `open_transport` leaves: the returned pointer (`none` for a
null pointer), the world state, and the calls made. -/
structure Outcome (σ : Type) where
  transport : Option Transport
  world : σ
  log : List Event

/-- The statements of `open_transport` after its loop: a transport that was
found is authenticated, and reset when the authentication failed. -/
def authenticateFound {σ : Type} (sys : Sys σ) (v : LoopVars σ) : Outcome σ :=
  match v.retTransport with
  | some t =>
    let (resp, w) := sys.authenticate t.fd v.negotiateFD v.world
    let log := v.log ++ [Event.authenticate t.fd v.negotiateFD resp.1]
    if resp.1 = false then { transport := none, world := w, log := log }
    else { transport := some { t with m_serverAddress := resp.2.2 }, world := w, log := log }
  | none => { transport := none, world := v.world, log := v.log }

/-- The body of `Transport::open_transport` after the address is parsed. -/
def open_transport_of {σ : Type} (sys : Sys σ) (transports : List ParsedTransport) (w : σ) :
    Outcome σ :=
  authenticateFound sys (tryTransports sys transports (LoopVars.initial w))

/-- The function `Transport::open_transport` of transport.cpp. -/
def open_transport {σ : Type} (sys : Sys σ) (address : Str) (w : σ) : Outcome σ :=
  open_transport_of sys (parseTransports address) w

/-- The paths passed to `open_unix_socket`, in call order. -/
def openedPaths : List Event → List Str
  | [] => []
  | Event.open_unix_socket path _ :: es => path :: openedPaths es
  | _ :: es => openedPaths es

/-- The non-empty `path` option values of the candidates named `unix`, in
candidate order. -/
def unixPaths : List ParsedTransport → List Str
  | [] => []
  | param :: rest =>
    if param.m_transportName = ['u', 'n', 'i', 'x'] ∧
        Config.valueAt param.m_config ['p', 'a', 't', 'h'] ≠ [] then
      Config.valueAt param.m_config ['p', 'a', 't', 'h'] :: unixPaths rest
    else unixPaths rest

/-- A list of socket paths truncated after the first one that opens
(`fd >= 0`) and whose transport is valid, the paths being tried in order from
the world state `w`. -/
def truncateAfterFirstUsable {σ : Type} (sys : Sys σ) : List Str → σ → List Str
  | [], _ => []
  | path :: rest, w =>
    let (fd, w1) := open_unix_socket sys path w
    if 0 ≤ fd then
      let (t, w2) := sys.create fd w1
      if t.is_valid then [path] else path :: truncateAfterFirstUsable sys rest w2
    else path :: truncateAfterFirstUsable sys rest w1

/-- A world for examples: the socket paths connected so far, in order. -/
abbrev DemoWorld := List Str

/-- Collaborators for examples.  Descriptors are handed out from 3 upwards;
`connect` fails on the path `/down` and succeeds on every other path; the
transport made for a socket connected to `/stale` is not valid; the peer
behind a socket accepts the authentication exactly when the socket path is
`/b`. -/
def demoSys : Sys DemoWorld where
  socket := fun w => (3 + (w.length : Int), w)
  connect := fun _ path w => if path = "/down".toList then (-1, w) else (0, w ++ [path])
  setsockopt := fun _ w => (0, w)
  fcntl := fun _ w => w
  create := fun fd w =>
    ({ fd := fd, is_valid := decide (w.get? (fd - 3).toNat ≠ some "/stale".toList),
       m_serverAddress := [] }, w)
  authenticate := fun fd _ w =>
    ((decide (w.get? (fd - 3).toNat = some "/b".toList), false, [1]), w)

/-! ## Bulk extraction from a `VariantIterator` -/

/-- The exceptions that can leave the conversions: `ErrorInvalidTypecast` with
its message, or any other exception thrown by a collaborator. -/
inductive Exception where
  | ErrorInvalidTypecast (what : String)
  | other (what : String)
deriving DecidableEq, Repr

/-- The state-changing member calls made on iterators: `recurse()`, an
extraction `operator T()`, and `next()`, each with the iterator it is made on. -/
inductive IterCall (It : Type) where
  | recurse (it : It)
  | extract (it : It)
  | next (it : It)
deriving DecidableEq, Repr

/-- The non-template members of `VariantIterator` that the conversions use.
Iterators are handles `It` into a memory `σ` that holds the cursor states, so
that iterators may share state.  The `const` members read the memory;
`recurse()` returns a new iterator or throws; `next()` returns whether the
iterator moved forward. -/
structure IterOps (It σ : Type) where
  is_valid : It → σ → Bool
  is_array : It → σ → Bool
  is_dict : It → σ → Bool
  recurse : It → σ → Except Exception It × σ
  next : It → σ → Bool × σ

/-- A conversion `operator T()` of `VariantIterator`: the value of the current
element, or an exception. -/
abbrev Cast (It σ T : Type) := It → σ → Except Exception T × σ

/-- The memory of the iterators together with the calls made so far. -/
structure IterState (It σ : Type) where
  mem : σ
  calls : List (IterCall It)

/-- How a conversion ends: with a value, with an exception, or, in this
embedding, with the iteration bound of a loop used up. -/
inductive Result (α : Type) where
  | value (a : α)
  | thrown (e : Exception)
  | outOfFuel
deriving DecidableEq, Repr

section Iterator

variable {It σ : Type}

/-- The template `VariantIterator::operator>>( T& v )` on the iterator `it`:
`v = static_cast<T>(*this); this->next(); return *this;`.  The result is the
value assigned to `v`. -/
def operator_shift {T : Type} (ops : IterOps It σ) (cast : Cast It σ T) (it : It)
    (s : IterState It σ) : Result T × IterState It σ :=
  match cast it s.mem with
  | (Except.error e, m) =>
    (Result.thrown e, { mem := m, calls := s.calls ++ [IterCall.extract it] })
  | (Except.ok v, m) =>
    (Result.value v,
      { mem := (ops.next it m).2,
        calls := s.calls ++ [IterCall.extract it, IterCall.next it] })

/-- The loop `while( subiter.is_valid() )` of the conversion to
`std::vector<T>`, for at most `fuel` iterations. -/
def vectorLoop {T : Type} (ops : IterOps It σ) (cast : Cast It σ T) (subiter : It) :
    Nat → List T → IterState It σ → Result (List T) × IterState It σ
  | 0, retval, s =>
    if ops.is_valid subiter s.mem then (Result.outOfFuel, s) else (Result.value retval, s)
  | fuel + 1, retval, s =>
    if ops.is_valid subiter s.mem then
      match operator_shift ops cast subiter s with
      | (Result.value val, s1) => vectorLoop ops cast subiter fuel (retval ++ [val]) s1
      | (Result.thrown e, s1) => (Result.thrown e, s1)
      | (Result.outOfFuel, s1) => (Result.outOfFuel, s1)
    else (Result.value retval, s)

/-- The template `VariantIterator::operator std::vector<T>()` on the iterator
`it`. -/
def operator_vector {T : Type} (ops : IterOps It σ) (cast : Cast It σ T) (fuel : Nat)
    (it : It) (s : IterState It σ) : Result (List T) × IterState It σ :=
  if !ops.is_array it s.mem then
    (Result.thrown (Exception.ErrorInvalidTypecast
      "VariantIterator: Extracting non array into std::vector"), s)
  else
    match ops.recurse it s.mem with
    | (Except.error e, m) =>
      (Result.thrown e, { mem := m, calls := s.calls ++ [IterCall.recurse it] })
    | (Except.ok subiter, m) =>
      vectorLoop ops cast subiter fuel []
        { mem := m, calls := s.calls ++ [IterCall.recurse it] }

/-- The inner loop `while( subSubiter.is_valid() )` of the conversion to
`std::map<Key,Data>`, for at most `fuel` iterations.  The variables `val_key`
and `val_data` are assigned before each use, so they are not carried from one
iteration to the next. -/
def mapInnerLoop {Key Data : Type} [LinearOrder Key] (ops : IterOps It σ)
    (castKey : Cast It σ Key) (castData : Cast It σ Data) (subSubiter : It) :
    Nat → StdMap Key Data → IterState It σ → Result (StdMap Key Data) × IterState It σ
  | 0, dict, s =>
    if ops.is_valid subSubiter s.mem then (Result.outOfFuel, s) else (Result.value dict, s)
  | fuel + 1, dict, s =>
    if ops.is_valid subSubiter s.mem then
      match operator_shift ops castKey subSubiter s with
      | (Result.value val_key, s1) =>
        match operator_shift ops castData subSubiter s1 with
        | (Result.value val_data, s2) =>
          mapInnerLoop ops castKey castData subSubiter fuel (StdMap.set val_key val_data dict)
            { mem := (ops.next subSubiter s2.mem).2,
              calls := s2.calls ++ [IterCall.next subSubiter] }
        | (Result.thrown e, s2) => (Result.thrown e, s2)
        | (Result.outOfFuel, s2) => (Result.outOfFuel, s2)
      | (Result.thrown e, s1) => (Result.thrown e, s1)
      | (Result.outOfFuel, s1) => (Result.outOfFuel, s1)
    else (Result.value dict, s)

/-- The outer loop `while( subiter.is_valid() )` of the conversion to
`std::map<Key,Data>`, for at most `fuel` iterations, each of which runs the
inner loop for at most `fuel` iterations. -/
def mapOuterLoop {Key Data : Type} [LinearOrder Key] (ops : IterOps It σ)
    (castKey : Cast It σ Key) (castData : Cast It σ Data) (subiter : It) (fuel : Nat) :
    Nat → StdMap Key Data → IterState It σ → Result (StdMap Key Data) × IterState It σ
  | 0, dict, s =>
    if ops.is_valid subiter s.mem then (Result.outOfFuel, s) else (Result.value dict, s)
  | n + 1, dict, s =>
    if ops.is_valid subiter s.mem then
      match ops.recurse subiter s.mem with
      | (Except.error e, m) =>
        (Result.thrown e, { mem := m, calls := s.calls ++ [IterCall.recurse subiter] })
      | (Except.ok subSubiter, m) =>
        match mapInnerLoop ops castKey castData subSubiter fuel dict
            { mem := m, calls := s.calls ++ [IterCall.recurse subiter] } with
        | (Result.value dict1, s1) =>
          mapOuterLoop ops castKey castData subiter fuel n dict1
            { mem := (ops.next subiter s1.mem).2,
              calls := s1.calls ++ [IterCall.next subiter] }
        | (Result.thrown e, s1) => (Result.thrown e, s1)
        | (Result.outOfFuel, s1) => (Result.outOfFuel, s1)
    else (Result.value dict, s)

/-- The template `VariantIterator::operator std::map<Key,Data>()` on the
iterator `it`. -/
def operator_map {Key Data : Type} [LinearOrder Key] (ops : IterOps It σ)
    (castKey : Cast It σ Key) (castData : Cast It σ Data) (fuel : Nat)
    (it : It) (s : IterState It σ) : Result (StdMap Key Data) × IterState It σ :=
  if !ops.is_dict it s.mem then
    (Result.thrown (Exception.ErrorInvalidTypecast
      "MessageIterator: Extracting non dict into std::map"), s)
  else
    match ops.recurse it s.mem with
    | (Except.error e, m) =>
      (Result.thrown e, { mem := m, calls := s.calls ++ [IterCall.recurse it] })
    | (Except.ok subiter, m) =>
      mapOuterLoop ops castKey castData subiter fuel fuel []
        { mem := m, calls := s.calls ++ [IterCall.recurse it] }

end Iterator

/-- Values for examples: the elements that a cursor can stand on. -/
inductive DemoValue where
  | int32 (n : Int)
  | array (elements : List DemoValue)
  | dict (entries : List (DemoValue × DemoValue))
  | dict_entry (key value : DemoValue)

/-- The memory of the example iterators: for each iterator, by its number, the
elements from the current one on.  An iterator with no element left is
invalid. -/
abbrev DemoCursors := List (List DemoValue)

/-- The elements that a sub-iterator of the example ranges over. -/
def DemoValue.contents : DemoValue → Option (List DemoValue)
  | DemoValue.array elements => some elements
  | DemoValue.dict entries => some (entries.map fun e => DemoValue.dict_entry e.1 e.2)
  | DemoValue.dict_entry key value => some [key, value]
  | DemoValue.int32 _ => none

/-- Iterator members for examples, over `DemoCursors`. -/
def demoOps : IterOps Nat DemoCursors where
  is_valid := fun it m => !((m.getD it []).isEmpty)
  is_array := fun it m =>
    match (m.getD it []).head? with
    | some (DemoValue.array _) => true
    | some (DemoValue.dict _) => true
    | _ => false
  is_dict := fun it m =>
    match (m.getD it []).head? with
    | some (DemoValue.dict _) => true
    | _ => false
  recurse := fun it m =>
    match ((m.getD it []).head?).bind DemoValue.contents with
    | some elements => (Except.ok m.length, m ++ [elements])
    | none => (Except.error (Exception.ErrorInvalidTypecast "recurse"), m)
  next := fun it m =>
    (!(((m.getD it []).drop 1).isEmpty), m.set it ((m.getD it []).drop 1))

/-- The conversion `operator int32_t()` of the example iterators. -/
def demoInt32 : Cast Nat DemoCursors Int := fun it m =>
  match (m.getD it []).head? with
  | some (DemoValue.int32 n) => (Except.ok n, m)
  | _ => (Except.error (Exception.ErrorInvalidTypecast "int32"), m)

/-! ## Cursors that range over given elements -/

section Ranges

variable {It σ : Type}

/-- The calls of `n` stream extractions on the iterator `sub`: `n` times an
extraction followed by a `next()`. -/
def extractCalls (sub : It) : Nat → List (IterCall It)
  | 0 => []
  | n + 1 => IterCall.extract sub :: IterCall.next sub :: extractCalls sub n

/-- The iterator `sub` ranges over the elements `es` from the memory `m` on:
it is valid at each of them, the conversion gives that element, `next()` moves
to the following one, and after the last `next()` it is invalid, in the memory
`m'`. -/
inductive RangesOver {T : Type} (ops : IterOps It σ) (cast : Cast It σ T) (sub : It) :
    σ → List T → σ → Prop where
  | done (m : σ) : ops.is_valid sub m = false → RangesOver ops cast sub m [] m
  | step (m m1 m' : σ) (e : T) (es : List T) :
      ops.is_valid sub m = true →
      cast sub m = (Except.ok e, m1) →
      RangesOver ops cast sub (ops.next sub m1).2 es m' →
      RangesOver ops cast sub m (e :: es) m'

/-- The calls of the conversion to `std::map<Key,Data>` for one dict entry,
made on the entry iterator `sub` and on its sub-iterator `ss`. -/
def entryCalls (sub ss : It) : List (IterCall It) :=
  [IterCall.recurse sub, IterCall.extract ss, IterCall.next ss, IterCall.extract ss,
   IterCall.next ss, IterCall.next ss, IterCall.next sub]

/-- The iterator `sub` ranges over the dict entries `es` from the memory `m`
on.  At each entry it is valid and `recurse()` gives an iterator `ss` that
yields exactly a key element followed by a value element: `ss` is valid, the
key conversion succeeds, after `next()` the value conversion succeeds, and
after the second `next()` it is invalid.  An invalid iterator stays invalid
under a further `next()`.  Then `next()` on `sub` moves to the following
entry; after the last entry `sub` is invalid, in the memory `m'`.  The list
`cs` holds the calls made on the way. -/
inductive EntriesOver {Key Data : Type} (ops : IterOps It σ) (castKey : Cast It σ Key)
    (castData : Cast It σ Data) (sub : It) :
    σ → List (Key × Data) → σ → List (IterCall It) → Prop where
  | done (m : σ) : ops.is_valid sub m = false →
      EntriesOver ops castKey castData sub m [] m []
  | step (m m1 m2 m3 m' : σ) (ss : It) (k : Key) (d : Data) (es : List (Key × Data))
      (cs : List (IterCall It)) :
      ops.is_valid sub m = true →
      ops.recurse sub m = (Except.ok ss, m1) →
      ops.is_valid ss m1 = true →
      castKey ss m1 = (Except.ok k, m2) →
      castData ss (ops.next ss m2).2 = (Except.ok d, m3) →
      ops.is_valid ss (ops.next ss m3).2 = false →
      ops.is_valid ss (ops.next ss (ops.next ss m3).2).2 = false →
      EntriesOver ops castKey castData sub
        (ops.next sub (ops.next ss (ops.next ss m3).2).2).2 es m' cs →
      EntriesOver ops castKey castData sub m ((k, d) :: es) m' (entryCalls sub ss ++ cs)

end Ranges

/-! ## Stream extraction and the calling protocol of `next()` -/

section Protocol

variable {It σ : Type}

/-- The expression `it >> a >> b`: `operator>>` on `it`, then `operator>>` on
the iterator that the first one returns, which is `*this`, that is `it`
again.  The result is the pair of the values assigned to `a` and to `b`. -/
def operator_shift_twice {A B : Type} (ops : IterOps It σ) (castA : Cast It σ A)
    (castB : Cast It σ B) (it : It) (s : IterState It σ) : Result (A × B) × IterState It σ :=
  match operator_shift ops castA it s with
  | (Result.value a, s1) =>
    match operator_shift ops castB it s1 with
    | (Result.value b, s2) => (Result.value (a, b), s2)
    | (Result.thrown e, s2) => (Result.thrown e, s2)
    | (Result.outOfFuel, s2) => (Result.outOfFuel, s2)
  | (Result.thrown e, s1) => (Result.thrown e, s1)
  | (Result.outOfFuel, s1) => (Result.outOfFuel, s1)

/-- The rule in the documentation of `VariantIterator::next()`, checked on a
list of calls: `pending` holds the iterators whose last `next()` has not been
followed by an extraction on the same iterator; a further `next()` on one of
them breaks the rule. -/
def nextProtocolFrom [DecidableEq It] (pending : List It) : List (IterCall It) → Bool
  | [] => true
  | IterCall.next it :: cs =>
    if it ∈ pending then false else nextProtocolFrom (it :: pending) cs
  | IterCall.extract it :: cs =>
    nextProtocolFrom (pending.filter fun x => decide (x ≠ it)) cs
  | IterCall.recurse _ :: cs => nextProtocolFrom pending cs

/-- On no iterator is `next()` called twice in a row without an extraction on
that iterator in between. -/
def respectsNextProtocol [DecidableEq It] (cs : List (IterCall It)) : Bool :=
  nextProtocolFrom [] cs

end Protocol

/-! ## The socket address and the open descriptors -/

/-- The value of `sizeof( addr.sun_path )` for `struct sockaddr_un` on Linux. -/
def sun_path_size : Nat := 108

/-- The number of bytes that the call
`memcpy( addr.sun_path, socketAddress.c_str(), socketAddress.size() )` of
`open_unix_socket` writes from the start of `addr.sun_path`. -/
def sun_path_bytes_copied (socketAddress : Str) : Nat :=
  socketAddress.length

/-- A kernel for examples whose world is the list of the open descriptors.
`socket()` opens the next descriptor, from 3 upwards; `connect()` fails on the
path `/down` and `setsockopt()` fails on the descriptor 4; no call of
`open_unix_socket` closes a descriptor. -/
def fdSys : Sys (List Int) where
  socket := fun w => (3 + (w.length : Int), w ++ [3 + (w.length : Int)])
  connect := fun _ path w => if path = ['/', 'd', 'o', 'w', 'n'] then (-1, w) else (0, w)
  setsockopt := fun fd w => if fd = 4 then (-1, w) else (0, w)
  fcntl := fun _ w => w
  create := fun fd w => ({ fd := fd, is_valid := true, m_serverAddress := [] }, w)
  authenticate := fun _ _ w => ((true, false, []), w)

end DBus

/-! ## Theorems -/

namespace DBus

/-! ### The scan of a grammar address -/

theorem scan_name (n : Str) (hn : ':' ∉ n) (p : ParserVars)
    (hs : p.state = ParsingState.Parsing_Transport_Name) :
    n.foldl parseStep p = { p with tmpTransportName := p.tmpTransportName ++ n } := by
  induction n generalizing p with
  | nil => simp
  | cons c n ih =>
    simp only [List.mem_cons, not_or] at hn
    have hc : c ≠ ':' := fun h => hn.1 h.symm
    rw [List.foldl_cons, ih hn.2]
    · simp [parseStep, hs, hc]
    · simp [parseStep, hs, hc]

theorem scan_key (k : Str) (hk : '=' ∉ k) (p : ParserVars)
    (hs : p.state = ParsingState.Parsing_Key) :
    k.foldl parseStep p = { p with tmpKey := p.tmpKey ++ k } := by
  induction k generalizing p with
  | nil => simp
  | cons c k ih =>
    simp only [List.mem_cons, not_or] at hk
    have hc : c ≠ '=' := fun h => hk.1 h.symm
    rw [List.foldl_cons, ih hk.2]
    · simp [parseStep, hs, hc]
    · simp [parseStep, hs, hc]

theorem scan_value (v : Str) (h1 : ',' ∉ v) (h2 : ';' ∉ v) (p : ParserVars)
    (hs : p.state = ParsingState.Parsing_Value) :
    v.foldl parseStep p = { p with tmpValue := p.tmpValue ++ v } := by
  induction v generalizing p with
  | nil => simp
  | cons c v ih =>
    simp only [List.mem_cons, not_or] at h1 h2
    have hc1 : c ≠ ',' := fun h => h1.1 h.symm
    have hc2 : c ≠ ';' := fun h => h2.1 h.symm
    rw [List.foldl_cons, ih h1.2 h2.2]
    · simp [parseStep, hs, hc1, hc2]
    · simp [parseStep, hs, hc1, hc2]

theorem scan_pair (a : Str × Str) (ha1 : '=' ∉ a.1) (ha2 : ',' ∉ a.2) (ha3 : ';' ∉ a.2)
    (n : Str) (c : Config) (r : List ParsedTransport) :
    (renderPair a).foldl parseStep
      { tmpTransportName := n, tmpKey := [], tmpValue := [], tmpConfig := c, retval := r,
        state := ParsingState.Parsing_Key } =
      { tmpTransportName := n, tmpKey := a.1, tmpValue := a.2, tmpConfig := c, retval := r,
        state := ParsingState.Parsing_Value } := by
  unfold renderPair
  rw [List.foldl_append, scan_key a.1 ha1 _ rfl, List.foldl_cons, scan_value a.2 ha2 ha3]
  · simp [parseStep]
  · simp [parseStep]

theorem renderPairs_cons_cons (a b : Str × Str) (ps : List (Str × Str)) :
    renderPairs (a :: b :: ps) = renderPair a ++ ',' :: renderPairs (b :: ps) := rfl

theorem renderPairs_single (a : Str × Str) : renderPairs [a] = renderPair a := rfl

theorem scan_pairs (ps : List (Str × Str)) (hne : ps ≠ [])
    (hok : ∀ q ∈ ps, '=' ∉ q.1 ∧ ',' ∉ q.2 ∧ ';' ∉ q.2)
    (n : Str) (c : Config) (r : List ParsedTransport) :
    ∃ k v c', (renderPairs ps).foldl parseStep
      { tmpTransportName := n, tmpKey := [], tmpValue := [], tmpConfig := c, retval := r,
        state := ParsingState.Parsing_Key } =
      { tmpTransportName := n, tmpKey := k, tmpValue := v, tmpConfig := c', retval := r,
        state := ParsingState.Parsing_Value } ∧
      StdMap.set k v c' = ps.foldl (fun m q => StdMap.set q.1 q.2 m) c := by
  induction ps generalizing c with
  | nil => exact absurd rfl hne
  | cons a ps ih =>
    obtain ⟨ha1, ha2, ha3⟩ := hok a (List.mem_cons_self _ _)
    cases ps with
    | nil =>
      exact ⟨a.1, a.2, c, by rw [renderPairs_single, scan_pair a ha1 ha2 ha3], rfl⟩
    | cons b ps =>
      have hrest : ∀ q ∈ b :: ps, '=' ∉ q.1 ∧ ',' ∉ q.2 ∧ ';' ∉ q.2 :=
        fun q hq => hok q (List.mem_cons_of_mem _ hq)
      obtain ⟨k, v, c', h1, h2⟩ := ih (List.cons_ne_nil _ _) hrest (StdMap.set a.1 a.2 c)
      refine ⟨k, v, c', ?_, ?_⟩
      · rw [renderPairs_cons_cons, List.foldl_append, scan_pair a ha1 ha2 ha3,
          List.foldl_cons]
        simpa [parseStep] using h1
      · rw [h2]; rfl

theorem initial_eq_fresh : ParserVars.initial = ParserVars.fresh [] := rfl

theorem scan_segment (g : Segment) (hg : g.Scannable) (r : List ParsedTransport) :
    ∃ k v c', (renderSegment g).foldl parseStep (ParserVars.fresh r) =
      { tmpTransportName := g.name, tmpKey := k, tmpValue := v, tmpConfig := c', retval := r,
        state := ParsingState.Parsing_Value } ∧
      StdMap.set k v c' = StdMap.ofPairs g.pairs := by
  obtain ⟨h1, h2, h3⟩ := hg
  obtain ⟨k, v, c', e1, e2⟩ := scan_pairs g.pairs h2 h3 g.name [] r
  refine ⟨k, v, c', ?_, e2⟩
  unfold renderSegment
  rw [List.foldl_append, scan_name g.name h1 _ rfl, List.foldl_cons]
  simpa [parseStep, ParserVars.fresh] using e1

theorem renderAddress_cons_cons (g h : Segment) (gs : List Segment) :
    renderAddress (g :: h :: gs) = renderSegment g ++ ';' :: renderAddress (h :: gs) := rfl

theorem renderAddress_single (g : Segment) : renderAddress [g] = renderSegment g := rfl

theorem scan_address (gs : List Segment) (hne : gs ≠ [])
    (hok : ∀ g ∈ gs, g.Scannable) (r : List ParsedTransport) :
    ∃ n k v c', (renderAddress gs).foldl parseStep (ParserVars.fresh r) =
      { tmpTransportName := n, tmpKey := k, tmpValue := v, tmpConfig := c',
        retval := r ++ records gs.dropLast, state := ParsingState.Parsing_Value } ∧
      records gs = records gs.dropLast ++ [{ m_transportName := n, m_config := StdMap.set k v c' }] ∧
      n = (gs.getLast hne).name := by
  induction gs generalizing r with
  | nil => exact absurd rfl hne
  | cons g gs ih =>
    obtain ⟨k, v, c', e1, e2⟩ := scan_segment g (hok g (List.mem_cons_self _ _)) r
    cases gs with
    | nil =>
      refine ⟨g.name, k, v, c', ?_, ?_, rfl⟩
      · rw [renderAddress_single, e1]; simp [records]
      · simp [records, e2]
    | cons h gs =>
      have hrest : ∀ x ∈ h :: gs, x.Scannable := fun x hx => hok x (List.mem_cons_of_mem _ hx)
      obtain ⟨n, k2, v2, c2, f1, f2, f3⟩ := ih (List.cons_ne_nil _ _) hrest
        (r ++ [{ m_transportName := g.name, m_config := StdMap.ofPairs g.pairs }])
      refine ⟨n, k2, v2, c2, ?_, ?_, ?_⟩
      · rw [renderAddress_cons_cons, List.foldl_append, e1, List.foldl_cons]
        have hstep : parseStep
            { tmpTransportName := g.name, tmpKey := k, tmpValue := v,
              tmpConfig := c', retval := r, state := ParsingState.Parsing_Value } ';' =
            ParserVars.fresh (r ++ [{ m_transportName := g.name,
                                      m_config := StdMap.ofPairs g.pairs }]) := by
          simp [parseStep, ParserVars.fresh, e2]
        rw [hstep, f1]
        simp [records, List.dropLast]
      · have hrec : records (g :: h :: gs) =
            { m_transportName := g.name, m_config := StdMap.ofPairs g.pairs } ::
              records (h :: gs) := rfl
        rw [hrec, f2]
        simp [records, List.dropLast]
      · rw [f3]; simp [List.getLast_cons]

theorem parseTransports_renderAddress (gs : List Segment) (hne : gs ≠ [])
    (hok : ∀ g ∈ gs, g.Scannable) (hlast : (gs.getLast hne).name ≠ []) :
    parseTransports (renderAddress gs) = records gs := by
  obtain ⟨n, k, v, c', e1, e2, e3⟩ := scan_address gs hne hok []
  unfold parseTransports
  rw [initial_eq_fresh, e1, e2]
  have hn : n ≠ [] := by rw [e3]; exact hlast
  simp [parseFinish, hn]

theorem parseStep_prepend (r : List ParsedTransport) (p : ParserVars) (c : Char) :
    parseStep (p.prepend r) c = (parseStep p c).prepend r := by
  obtain ⟨n, k, v, cfg, rv, st⟩ := p
  cases st <;> simp only [parseStep, ParserVars.prepend] <;> split_ifs <;> simp

theorem foldl_parseStep_prepend (r : List ParsedTransport) (s : Str) (p : ParserVars) :
    s.foldl parseStep (p.prepend r) = (s.foldl parseStep p).prepend r := by
  induction s generalizing p with
  | nil => rfl
  | cons c s ih => rw [List.foldl_cons, parseStep_prepend, ih, List.foldl_cons]

theorem parseFinish_prepend (r : List ParsedTransport) (p : ParserVars) :
    parseFinish (p.prepend r) = r ++ parseFinish p := by
  simp only [parseFinish, ParserVars.prepend]
  split_ifs <;> simp

theorem parse_from_fresh (r : List ParsedTransport) (s : Str) :
    parseFinish (s.foldl parseStep (ParserVars.fresh r)) = r ++ parseTransports s := by
  have h : ParserVars.fresh r = ParserVars.initial.prepend r := by
    simp [ParserVars.fresh, ParserVars.initial, ParserVars.prepend]
  rw [h, foldl_parseStep_prepend, parseFinish_prepend]; rfl

theorem parseTransports_append_semicolon (gs : List Segment) (hne : gs ≠ [])
    (hok : ∀ g ∈ gs, g.Scannable) (hlast : (gs.getLast hne).name ≠ []) (b : Str) :
    parseTransports (renderAddress gs ++ ';' :: b) =
      parseTransports (renderAddress gs) ++ parseTransports b := by
  rw [parseTransports_renderAddress gs hne hok hlast]
  obtain ⟨n, k, v, c', e1, e2, _⟩ := scan_address gs hne hok []
  unfold parseTransports
  rw [List.foldl_append, initial_eq_fresh, e1, List.foldl_cons]
  have hstep : parseStep
      { tmpTransportName := n, tmpKey := k, tmpValue := v, tmpConfig := c',
        retval := [] ++ records gs.dropLast, state := ParsingState.Parsing_Value } ';' =
      ParserVars.fresh (records gs) := by
    rw [e2]; simp [parseStep, ParserVars.fresh]
  rw [hstep, parse_from_fresh]; rfl

theorem Segment.Conforms.scannable {g : Segment} (h : g.Conforms) : g.Scannable :=
  ⟨h.2.1, h.2.2.2.1, fun p hp => ⟨(h.2.2.2.2 p hp).1.1, (h.2.2.2.2 p hp).2⟩⟩

/-! ### Assignment and lookup in a `std::map` -/

namespace StdMap

variable {K D : Type} [LinearOrder K]

theorem find_set (k : K) (v : D) (k' : K) (m : StdMap K D) :
    find k' (set k v m) = if k' = k then some v else find k' m := by
  induction m with
  | nil => simp [set, find]
  | cons e m ih =>
    obtain ⟨k1, v1⟩ := e
    simp only [set]
    by_cases hk : k' = k
    · subst hk
      by_cases h1 : k' = k1
      · simp [h1, find]
      · by_cases h2 : k' < k1
        · simp [h1, h2, find]
        · simp [h1, h2, find, ih]
    · by_cases h1 : k = k1
      · subst h1; simp [find, hk]
      · by_cases h2 : k < k1
        · simp [h1, h2, find, hk]
        · simp [h1, h2, find, ih, hk]

theorem mem_keys_set (k : K) (v : D) (k' : K) (m : StdMap K D) :
    k' ∈ keys (set k v m) ↔ k' = k ∨ k' ∈ keys m := by
  induction m with
  | nil => simp [set, keys]
  | cons e m ih =>
    obtain ⟨k1, v1⟩ := e
    simp only [set]
    split_ifs with h1 h2
    · subst h1; simp [keys]
    · simp [keys]
    · simp only [keys, List.map_cons, List.mem_cons] at ih ⊢
      rw [ih]; tauto

theorem mem_set (k : K) (v : D) (m : StdMap K D) (e : K × D) (he : e ∈ set k v m) :
    e = (k, v) ∨ e ∈ m := by
  induction m with
  | nil => simpa [set] using he
  | cons e1 m ih =>
    obtain ⟨k1, v1⟩ := e1
    simp only [set] at he
    split_ifs at he with h1 h2
    · simp only [List.mem_cons] at he ⊢; tauto
    · simp only [List.mem_cons] at he ⊢; tauto
    · simp only [List.mem_cons] at he ⊢
      rcases he with he | he
      · tauto
      · have := ih he; tauto

theorem sorted_set (k : K) (v : D) (m : StdMap K D) (hm : Sorted m) : Sorted (set k v m) := by
  induction m with
  | nil => simp [set, Sorted, keys]
  | cons e m ih =>
    obtain ⟨k1, v1⟩ := e
    simp only [Sorted, keys, List.map_cons, List.pairwise_cons] at hm
    simp only [set]
    split_ifs with h1 h2
    · subst h1; simpa [Sorted, keys] using hm
    · simp only [Sorted, keys, List.map_cons, List.pairwise_cons, List.mem_cons]
      refine ⟨?_, hm⟩
      rintro a (rfl | ha)
      · exact h2
      · exact lt_trans h2 (hm.1 a ha)
    · simp only [Sorted, keys, List.map_cons, List.pairwise_cons]
      refine ⟨?_, ih hm.2⟩
      intro a ha
      have ha' : a ∈ keys (set k v m) := ha
      rw [mem_keys_set] at ha'
      rcases ha' with rfl | ha'
      · exact lt_of_le_of_ne (not_lt.mp h2) (Ne.symm h1)
      · exact hm.1 a ha'

theorem set_of_lt (k : K) (v : D) (m : StdMap K D) (h : ∀ a ∈ keys m, a < k) :
    set k v m = m ++ [(k, v)] := by
  induction m with
  | nil => rfl
  | cons e m ih =>
    obtain ⟨k1, v1⟩ := e
    have h1 : k1 < k := h k1 (by simp [keys])
    have h2 : k ≠ k1 := ne_of_gt h1
    have h3 : ¬ k < k1 := not_lt_of_gt h1
    simp only [set, h2, h3, if_false, List.cons_append]
    rw [ih (fun a ha => h a (by simp only [keys, List.map_cons, List.mem_cons] at ha ⊢; exact Or.inr ha))]

theorem foldl_set_of_sorted (m acc : StdMap K D) (h : Sorted (acc ++ m)) :
    m.foldl (fun c p => set p.1 p.2 c) acc = acc ++ m := by
  induction m generalizing acc with
  | nil => simp
  | cons e m ih =>
    have hlt : ∀ a ∈ keys acc, a < e.1 := by
      intro a ha
      simp only [Sorted, keys, List.map_append, List.map_cons, List.pairwise_append,
        List.mem_cons] at h
      exact h.2.2 a ha e.1 (Or.inl rfl)
    rw [List.foldl_cons, set_of_lt e.1 e.2 acc hlt, ih]
    · simp
    · simpa using h

theorem sorted_foldl_set (ps : List (K × D)) (acc : StdMap K D) (h : Sorted acc) :
    Sorted (ps.foldl (fun c p => set p.1 p.2 c) acc) := by
  induction ps generalizing acc with
  | nil => exact h
  | cons e ps ih => exact ih _ (sorted_set _ _ _ h)

theorem sorted_ofPairs (ps : List (K × D)) : Sorted (ofPairs ps) :=
  sorted_foldl_set ps [] (by simp [Sorted, keys])

theorem ofPairs_of_sorted (m : StdMap K D) (h : Sorted m) : ofPairs m = m := by
  have := foldl_set_of_sorted m [] (by simpa using h)
  simpa [ofPairs] using this

theorem ofPairs_ofPairs (ps : List (K × D)) : ofPairs (ofPairs ps) = ofPairs ps :=
  ofPairs_of_sorted _ (sorted_ofPairs ps)

theorem mem_foldl_set (ps : List (K × D)) (acc : StdMap K D) (e : K × D)
    (he : e ∈ ps.foldl (fun c p => set p.1 p.2 c) acc) : e ∈ ps ∨ e ∈ acc := by
  induction ps generalizing acc with
  | nil => exact Or.inr he
  | cons a ps ih =>
    rcases ih _ he with h | h
    · exact Or.inl (List.mem_cons_of_mem _ h)
    · rcases mem_set _ _ _ _ h with h | h
      · exact Or.inl (by rw [h]; exact List.mem_cons_self _ _)
      · exact Or.inr h

theorem mem_ofPairs (ps : List (K × D)) (e : K × D) (he : e ∈ ofPairs ps) : e ∈ ps := by
  rcases mem_foldl_set ps [] e he with h | h
  · exact h
  · simp at h

theorem ofPairs_ne_nil (ps : List (K × D)) (h : ps ≠ []) : ofPairs ps ≠ [] := by
  have key : ∀ (qs : List (K × D)) (acc : StdMap K D), acc ≠ [] →
      qs.foldl (fun c p => set p.1 p.2 c) acc ≠ [] := by
    intro qs
    induction qs with
    | nil => intro acc h; exact h
    | cons a qs ih =>
      intro acc _
      apply ih
      cases acc with
      | nil => simp [set]
      | cons b acc => obtain ⟨k1, v1⟩ := b; simp only [set]; split_ifs <;> simp
  cases ps with
  | nil => exact absurd rfl h
  | cons a ps => exact key ps _ (by simp [set])

end StdMap

theorem StdMap.find_foldl_set_of_not_mem {K D : Type} [LinearOrder K]
    (ps : List (K × D)) (acc : StdMap K D) (k : K)
    (h : ∀ p ∈ ps, p.1 ≠ k) :
    StdMap.find k (ps.foldl (fun c p => StdMap.set p.1 p.2 c) acc) = StdMap.find k acc := by
  induction ps generalizing acc with
  | nil => rfl
  | cons a ps ih =>
    rw [List.foldl_cons, ih _ (fun p hp => h p (List.mem_cons_of_mem _ hp)), StdMap.find_set]
    have : k ≠ a.1 := fun e => h a (List.mem_cons_self _ _) e.symm
    simp [this]

theorem StdMap.find_foldl_set_last {K D : Type} [LinearOrder K]
    (ps : List (K × D)) (acc : StdMap K D) (j : Nat)
    (hj : j < ps.length)
    (hlast : ∀ j' (hj' : j' < ps.length), j < j' → ps[j'].1 ≠ ps[j].1) :
    StdMap.find ps[j].1 (ps.foldl (fun c p => StdMap.set p.1 p.2 c) acc) = some ps[j].2 := by
  induction ps generalizing acc j with
  | nil => simp at hj
  | cons a ps ih =>
    cases j with
    | zero =>
      simp only [List.getElem_cons_zero, List.foldl_cons]
      rw [StdMap.find_foldl_set_of_not_mem, StdMap.find_set]
      · simp
      · intro p hp
        obtain ⟨i, hi, rfl⟩ := List.getElem_of_mem hp
        have := hlast (i + 1) (by simp; omega) (by omega)
        simpa using this
    | succ j =>
      simp only [List.getElem_cons_succ, List.foldl_cons]
      apply ih
      intro j' hj' hlt
      have := hlast (j' + 1) (by simp; omega) (by omega)
      simpa using this

theorem StdMap.mem_keys_foldl_set {K D : Type} [LinearOrder K]
    (ps : List (K × D)) (acc : StdMap K D) (k : K) :
    k ∈ StdMap.keys (ps.foldl (fun c p => StdMap.set p.1 p.2 c) acc) ↔
      (∃ p ∈ ps, p.1 = k) ∨ k ∈ StdMap.keys acc := by
  induction ps generalizing acc with
  | nil => simp
  | cons a ps ih =>
    rw [List.foldl_cons, ih, StdMap.mem_keys_set]
    simp only [List.mem_cons, exists_eq_or_imp]
    constructor
    · rintro (h | h | h)
      · exact Or.inl (Or.inr h)
      · exact Or.inl (Or.inl h.symm)
      · exact Or.inr h
    · rintro ((h | h) | h)
      · exact Or.inr (Or.inl h.symm)
      · exact Or.inl h
      · exact Or.inr (Or.inr h)

theorem parseTransports_no_colon (s : Str) (h : ':' ∉ s) :
    parseTransports s =
      if s = [] then [] else [{ m_transportName := s, m_config := [([], [])] }] := by
  unfold parseTransports
  rw [scan_name s h _ rfl]
  by_cases hs : s = []
  · simp [hs, parseFinish, ParserVars.initial]
  · simp [hs, parseFinish, ParserVars.initial, StdMap.set]

/-! ### Properties of `parseTransports` -/

/-- C1: for every address string `s` of the grammar, serializing
`parseTransports s` (name, `:`, pairs `k=v` joined by `,`, records joined by
`;`) and parsing the result again gives a list equal to `parseTransports s`:
the same records in the same order, with the same names and the same option
maps, values unchanged. -/
theorem parseTransports_serialize_roundtrip (s : Str) (hs : Conforms s) :
    parseTransports (serialize (parseTransports s)) = parseTransports s := by
  obtain ⟨gs, hne, hok, rfl⟩ := hs
  have hlast : (gs.getLast hne).name ≠ [] := (hok _ (List.getLast_mem hne)).1
  rw [parseTransports_renderAddress gs hne (fun g hg => (hok g hg).scannable) hlast]
  have hser : serialize (records gs) =
      renderAddress (gs.map fun g => { name := g.name, pairs := StdMap.ofPairs g.pairs }) := by
    simp [serialize, records, Function.comp_def]
  have hne' : (gs.map fun g => ({ name := g.name, pairs := StdMap.ofPairs g.pairs } : Segment))
      ≠ [] := by simpa using hne
  rw [hser, parseTransports_renderAddress _ hne']
  · simp [records, Function.comp_def, StdMap.ofPairs_ofPairs]
  · intro g' hg'
    obtain ⟨g, hg, rfl⟩ := List.mem_map.mp hg'
    obtain ⟨_, h2, _, h4, h5⟩ := hok g hg
    refine ⟨h2, StdMap.ofPairs_ne_nil _ h4, fun p hp => ?_⟩
    have := h5 p (StdMap.mem_ofPairs _ _ hp)
    exact ⟨this.1.1, this.2⟩
  · rw [List.getLast_map]
    exact hlast

/-- A witness of C1: the address `unix:path=/a,x=1,path=/b;tcp:host=h:1`. -/
theorem parseTransports_serialize_roundtrip_witness :
    parseTransports (serialize (parseTransports "unix:path=/a,x=1,path=/b;tcp:host=h:1".toList)) =
      parseTransports "unix:path=/a,x=1,path=/b;tcp:host=h:1".toList :=
  parseTransports_serialize_roundtrip _
    ⟨[{ name := "unix".toList,
        pairs := [("path".toList, "/a".toList), ("x".toList, "1".toList),
                  ("path".toList, "/b".toList)] },
      { name := "tcp".toList, pairs := [("host".toList, "h:1".toList)] }],
     by decide, by decide, by decide⟩

/-- C3 as stated fails: the address `unix` has no `:` and `parseTransports`
returns one record for it, so it is not true that every address without `:`
gives the empty list. -/
theorem parseTransports_no_colon_counterexample :
    ¬ ∀ s : Str, ':' ∉ s → parseTransports s = [] := by
  intro h
  exact absurd (h "unix".toList (by decide)) (by decide)

/-- C3, amended: for an address string without `:`, `parseTransports` returns
the empty list when the string is empty, and otherwise exactly one record,
whose name is the whole string and whose option map has the single entry from
the empty key to the empty value. -/
theorem parseTransports_no_colon_amended (s : Str) (h : ':' ∉ s) :
    (s = [] → parseTransports s = []) ∧
    (s ≠ [] → parseTransports s = [{ m_transportName := s, m_config := [([], [])] }]) := by
  rw [parseTransports_no_colon s h]
  constructor
  · intro hs; simp [hs]
  · intro hs; simp [hs]

/-- A witness of the amended C3: the address `unix`. -/
theorem parseTransports_no_colon_amended_witness :
    ':' ∉ "unix".toList ∧
    parseTransports "unix".toList =
      [{ m_transportName := "unix".toList, m_config := [([], [])] }] :=
  ⟨by decide, (parseTransports_no_colon_amended "unix".toList (by decide)).2 (by decide)⟩

theorem parseTransports_single_segment (n : Str) (ps : List (Str × Str)) (hn : n ≠ [])
    (hc : ':' ∉ n) (hne : ps ≠ [])
    (hok : ∀ p ∈ ps, '=' ∉ p.1 ∧ ',' ∉ p.2 ∧ ';' ∉ p.2) :
    parseTransports (n ++ ':' :: renderPairs ps) =
      [{ m_transportName := n, m_config := StdMap.ofPairs ps }] := by
  have := parseTransports_renderAddress [{ name := n, pairs := ps }] (by simp)
    (by intro g hg; simp only [List.mem_singleton] at hg; subst hg; exact ⟨hc, hne, hok⟩)
    (by simpa using hn)
  simpa [renderAddress, joinWith, renderSegment, records] using this

/-- C4: for a non-empty transport name `n` without `:`, a key `k` without `=`
and a value `v` without `,` and `;` (it may hold `:`, `=` and `%XX`
sequences), `parseTransports` of `n:k=v` is exactly one record, named `n`,
whose option map has the single entry `k -> v` with `v` unchanged. -/
theorem parseTransports_single_pair (n k v : Str) (hn : n ≠ []) (hc : ':' ∉ n)
    (hk : '=' ∉ k) (hv1 : ',' ∉ v) (hv2 : ';' ∉ v) :
    parseTransports (n ++ ':' :: (k ++ '=' :: v)) =
      [{ m_transportName := n, m_config := [(k, v)] }] := by
  have := parseTransports_single_segment n [(k, v)] hn hc (by simp)
    (by intro p hp; simp only [List.mem_singleton] at hp; subst hp; exact ⟨hk, hv1, hv2⟩)
  simpa [renderPairs, joinWith, renderPair, StdMap.ofPairs, StdMap.set] using this

/-- Witnesses of C4: `unix:path=/tmp/s` gives the one record
`unix` with `path -> /tmp/s`, and the value of `unix:path=/t%20m:p=x` is
kept as it is written. -/
theorem parseTransports_single_pair_witness :
    parseTransports "unix:path=/tmp/s".toList =
      [{ m_transportName := "unix".toList,
         m_config := [("path".toList, "/tmp/s".toList)] }] ∧
    parseTransports "unix:path=/t%20m:p=x".toList =
      [{ m_transportName := "unix".toList,
         m_config := [("path".toList, "/t%20m:p=x".toList)] }] :=
  ⟨parseTransports_single_pair "unix".toList "path".toList "/tmp/s".toList
      (by decide) (by decide) (by decide) (by decide) (by decide),
   parseTransports_single_pair "unix".toList "path".toList "/t%20m:p=x".toList
      (by decide) (by decide) (by decide) (by decide) (by decide)⟩

/-- C5: for every address `a` of the grammar and every string `b`,
`parseTransports (a ++ ";" ++ b) = parseTransports a ++ parseTransports b`:
the records keep the order of the input and nothing collected in an earlier
segment reaches a later record.  In particular `unix:path=/a;unix:path=/b`
gives exactly two records, the one with path `/a` first. -/
theorem parseTransports_segments_independent :
    (∀ a b : Str, Conforms a →
      parseTransports (a ++ ';' :: b) = parseTransports a ++ parseTransports b) ∧
    parseTransports "unix:path=/a;unix:path=/b".toList =
      [{ m_transportName := "unix".toList, m_config := [("path".toList, "/a".toList)] },
       { m_transportName := "unix".toList, m_config := [("path".toList, "/b".toList)] }] := by
  refine ⟨?_, by decide⟩
  rintro a b ⟨gs, hne, hok, rfl⟩
  exact parseTransports_append_semicolon gs hne (fun g hg => (hok g hg).scannable)
    (hok _ (List.getLast_mem hne)).1 b

/-- A witness of C5: `a` is `unix:path=/a,k=v` and `b` is the ill-formed
string `x;tcp:host=h`. -/
theorem parseTransports_segments_independent_witness :
    Conforms "unix:path=/a,k=v".toList ∧
    parseTransports ("unix:path=/a,k=v".toList ++ ';' :: "x;tcp:host=h".toList) =
      parseTransports "unix:path=/a,k=v".toList ++ parseTransports "x;tcp:host=h".toList :=
  have hc : Conforms "unix:path=/a,k=v".toList :=
    ⟨[{ name := "unix".toList,
        pairs := [("path".toList, "/a".toList), ("k".toList, "v".toList)] }],
     by decide, by decide, by decide⟩
  ⟨hc, parseTransports_segments_independent.1 _ _ hc⟩

/-- C6: for a single-segment address `n:k1=v1,...,km=vm` (`m >= 1`, `n`
non-empty without `:`, keys without `=`, values without `,` and `;`),
`parseTransports` returns one record, named `n`; the key set of its option map
is exactly the set of the keys written, no key occurs twice in it, and each
key is mapped to the value of its last occurrence. -/
theorem parseTransports_last_write_wins (n : Str) (ps : List (Str × Str)) (hn : n ≠ [])
    (hc : ':' ∉ n) (hne : ps ≠ [])
    (hok : ∀ p ∈ ps, '=' ∉ p.1 ∧ ',' ∉ p.2 ∧ ';' ∉ p.2) :
    ∃ cfg : Config,
      parseTransports (n ++ ':' :: renderPairs ps) =
        [{ m_transportName := n, m_config := cfg }] ∧
      (∀ k, k ∈ StdMap.keys cfg ↔ ∃ p ∈ ps, p.1 = k) ∧
      (StdMap.keys cfg).Nodup ∧
      ∀ (j : Nat) (hj : j < ps.length),
        (∀ (j' : Nat) (hj' : j' < ps.length), j < j' → ps[j'].1 ≠ ps[j].1) →
        StdMap.find ps[j].1 cfg = some ps[j].2 := by
  refine ⟨StdMap.ofPairs ps, parseTransports_single_segment n ps hn hc hne hok, ?_, ?_, ?_⟩
  · intro k
    have := StdMap.mem_keys_foldl_set ps [] k
    simpa [StdMap.ofPairs, StdMap.keys] using this
  · have h : StdMap.Sorted (StdMap.ofPairs ps) := StdMap.sorted_ofPairs ps
    exact (List.Pairwise.imp (fun hab => ne_of_lt hab) h)
  · intro j hj hlast
    exact StdMap.find_foldl_set_last ps [] j hj hlast

/-- A witness of C6: `unix:path=/a,x=1,path=/b` gives the map
`path -> /b, x -> 1`. -/
theorem parseTransports_last_write_wins_witness :
    ∃ cfg : Config,
      parseTransports "unix:path=/a,x=1,path=/b".toList =
        [{ m_transportName := "unix".toList, m_config := cfg }] ∧
      StdMap.find "path".toList cfg = some "/b".toList ∧
      StdMap.find "x".toList cfg = some "1".toList := by
  obtain ⟨cfg, h1, _, _, h4⟩ := parseTransports_last_write_wins "unix".toList
    [("path".toList, "/a".toList), ("x".toList, "1".toList), ("path".toList, "/b".toList)]
    (by decide) (by decide) (by decide) (by decide)
  refine ⟨cfg, h1, ?_, ?_⟩
  · exact h4 2 (by decide) (by intro j' hj' hlt; simp at hj'; omega)
  · refine h4 1 (by decide) ?_
    intro j' hj' hlt
    have : j' = 2 := by simp at hj'; omega
    subst this
    simp

/-! ### The candidate loop of `open_transport` -/

section OpenTransport

variable {σ : Type} (sys : Sys σ)

theorem tryTransports_skip (param : ParsedTransport) (rest : List ParsedTransport)
    (v : LoopVars σ)
    (h : param.m_transportName ≠ ['u', 'n', 'i', 'x'] ∨
      Config.valueAt param.m_config ['p', 'a', 't', 'h'] = []) :
    tryTransports sys (param :: rest) v = tryTransports sys rest v := by
  rw [tryTransports]
  rcases h with h | h
  · rw [if_neg h]
  · have hp : ¬ Config.valueAt param.m_config ['p', 'a', 't', 'h'] ≠ [] := not_not.mpr h
    rw [if_neg hp]
    split_ifs <;> rfl

theorem tryTransports_open_failed (param : ParsedTransport) (rest : List ParsedTransport)
    (v : LoopVars σ) (fd : Int) (w1 : σ)
    (hname : param.m_transportName = ['u', 'n', 'i', 'x'])
    (hpath : Config.valueAt param.m_config ['p', 'a', 't', 'h'] ≠ [])
    (hopen : open_unix_socket sys (Config.valueAt param.m_config ['p', 'a', 't', 'h']) v.world
      = (fd, w1))
    (hfd : fd < 0) :
    tryTransports sys (param :: rest) v =
      tryTransports sys rest
        { v with world := w1,
                 log := v.log ++ [Event.open_unix_socket
                   (Config.valueAt param.m_config ['p', 'a', 't', 'h']) fd] } := by
  rw [tryTransports, if_pos hname, if_pos hpath]
  simp only [hopen]
  rw [if_neg (not_le.mpr hfd)]

theorem tryTransports_invalid (param : ParsedTransport) (rest : List ParsedTransport)
    (v : LoopVars σ) (fd : Int) (w1 w2 : σ) (t : Transport)
    (hname : param.m_transportName = ['u', 'n', 'i', 'x'])
    (hpath : Config.valueAt param.m_config ['p', 'a', 't', 'h'] ≠ [])
    (hopen : open_unix_socket sys (Config.valueAt param.m_config ['p', 'a', 't', 'h']) v.world
      = (fd, w1))
    (hfd : 0 ≤ fd) (hcreate : sys.create fd w1 = (t, w2)) (hvalid : t.is_valid = false) :
    tryTransports sys (param :: rest) v =
      tryTransports sys rest
        { retTransport := none, negotiateFD := v.negotiateFD, world := w2,
          log := v.log ++ [Event.open_unix_socket
                   (Config.valueAt param.m_config ['p', 'a', 't', 'h']) fd] ++
                 [Event.create fd t] } := by
  rw [tryTransports, if_pos hname, if_pos hpath]
  simp only [hopen]
  rw [if_pos hfd]
  simp only [hcreate, hvalid]
  simp

theorem tryTransports_found (param : ParsedTransport) (rest : List ParsedTransport)
    (v : LoopVars σ) (fd : Int) (w1 w2 : σ) (t : Transport)
    (hname : param.m_transportName = ['u', 'n', 'i', 'x'])
    (hpath : Config.valueAt param.m_config ['p', 'a', 't', 'h'] ≠ [])
    (hopen : open_unix_socket sys (Config.valueAt param.m_config ['p', 'a', 't', 'h']) v.world
      = (fd, w1))
    (hfd : 0 ≤ fd) (hcreate : sys.create fd w1 = (t, w2)) (hvalid : t.is_valid = true) :
    tryTransports sys (param :: rest) v =
      { retTransport := some t, negotiateFD := true, world := w2,
        log := v.log ++ [Event.open_unix_socket
                 (Config.valueAt param.m_config ['p', 'a', 't', 'h']) fd] ++
               [Event.create fd t] } := by
  rw [tryTransports, if_pos hname, if_pos hpath]
  simp only [hopen]
  rw [if_pos hfd]
  simp only [hcreate, hvalid]
  simp

/-- The four ways in which one candidate goes through the loop body. -/
theorem candidate_cases (param : ParsedTransport) (w : σ) :
    (param.m_transportName ≠ ['u', 'n', 'i', 'x'] ∨
      Config.valueAt param.m_config ['p', 'a', 't', 'h'] = []) ∨
    (param.m_transportName = ['u', 'n', 'i', 'x'] ∧
      Config.valueAt param.m_config ['p', 'a', 't', 'h'] ≠ [] ∧
      ∃ fd w1, open_unix_socket sys (Config.valueAt param.m_config ['p', 'a', 't', 'h']) w = (fd, w1) ∧
        (fd < 0 ∨ (0 ≤ fd ∧ ∃ t w2, sys.create fd w1 = (t, w2)))) := by
  by_cases h1 : param.m_transportName = ['u', 'n', 'i', 'x']
  · by_cases h2 : Config.valueAt param.m_config ['p', 'a', 't', 'h'] = []
    · exact Or.inl (Or.inr h2)
    · refine Or.inr ⟨h1, h2, _, _, rfl, ?_⟩
      by_cases h3 : (open_unix_socket sys (Config.valueAt param.m_config ['p', 'a', 't', 'h']) w).1 < 0
      · exact Or.inl h3
      · exact Or.inr ⟨not_lt.mp h3, _, _, rfl⟩
  · exact Or.inl (Or.inl h1)

theorem tryTransports_withLogPrefix (l : List Event) (ts : List ParsedTransport)
    (v : LoopVars σ) :
    tryTransports sys ts (v.withLogPrefix l) = (tryTransports sys ts v).withLogPrefix l := by
  induction ts generalizing v with
  | nil => rfl
  | cons param rest ih =>
    rcases candidate_cases sys param v.world with h | ⟨h1, h2, fd, w1, ho, h3⟩
    · rw [tryTransports_skip sys _ _ _ h, tryTransports_skip sys _ _ _ h, ih]
    · rcases h3 with h3 | ⟨h3, t, w2, hc⟩
      · rw [tryTransports_open_failed sys param rest v fd w1 h1 h2 ho h3,
          tryTransports_open_failed sys param rest (v.withLogPrefix l) fd w1 h1 h2 ho h3,
          ← ih]
        simp [LoopVars.withLogPrefix]
      · cases hv : t.is_valid
        · rw [tryTransports_invalid sys param rest v fd w1 w2 t h1 h2 ho h3 hc hv,
            tryTransports_invalid sys param rest (v.withLogPrefix l) fd w1 w2 t h1 h2 ho h3 hc hv,
            ← ih]
          simp [LoopVars.withLogPrefix]
        · rw [tryTransports_found sys param rest v fd w1 w2 t h1 h2 ho h3 hc hv,
            tryTransports_found sys param rest (v.withLogPrefix l) fd w1 w2 t h1 h2 ho h3 hc hv]
          simp [LoopVars.withLogPrefix]

theorem tryTransports_append (pre rest : List ParsedTransport) (v : LoopVars σ)
    (hpre : (tryTransports sys pre v).retTransport = none) :
    tryTransports sys (pre ++ rest) v = tryTransports sys rest (tryTransports sys pre v) := by
  induction pre generalizing v with
  | nil => rfl
  | cons param pre ih =>
    rcases candidate_cases sys param v.world with h | ⟨h1, h2, fd, w1, ho, h3⟩
    · rw [tryTransports_skip sys _ _ _ h] at hpre ⊢
      rw [List.cons_append, tryTransports_skip sys _ _ _ h, ih _ hpre]
    · rcases h3 with h3 | ⟨h3, t, w2, hc⟩
      · rw [tryTransports_open_failed sys param pre v fd w1 h1 h2 ho h3] at hpre ⊢
        rw [List.cons_append, tryTransports_open_failed sys param _ v fd w1 h1 h2 ho h3,
          ih _ hpre]
      · cases hv : t.is_valid
        · rw [tryTransports_invalid sys param pre v fd w1 w2 t h1 h2 ho h3 hc hv] at hpre ⊢
          rw [List.cons_append, tryTransports_invalid sys param _ v fd w1 w2 t h1 h2 ho h3 hc hv,
            ih _ hpre]
        · rw [tryTransports_found sys param pre v fd w1 w2 t h1 h2 ho h3 hc hv] at hpre
          simp at hpre

/-- What the loop leaves when it is entered with no transport held: calls are
only added to the log, none of them is `authenticate`, and either no transport
is held and `negotiateFD` is as before, or the last two calls are an
`open_unix_socket` that gave a descriptor and the `create` of a valid
transport on it, which is the one held, and `negotiateFD` is set. -/
theorem tryTransports_log (ts : List ParsedTransport) (v : LoopVars σ)
    (hv : v.retTransport = none) :
    ∃ l : List Event, (tryTransports sys ts v).log = v.log ++ l ∧
      (∀ fd n s, Event.authenticate fd n s ∉ l) ∧
      (((tryTransports sys ts v).retTransport = none ∧
          (tryTransports sys ts v).negotiateFD = v.negotiateFD) ∨
        ∃ l' path fd t, l = l' ++ [Event.open_unix_socket path fd, Event.create fd t] ∧
          0 ≤ fd ∧ t.is_valid = true ∧
          (tryTransports sys ts v).retTransport = some t ∧
          (tryTransports sys ts v).negotiateFD = true) := by
  induction ts generalizing v with
  | nil => exact ⟨[], by simp [tryTransports], by simp, Or.inl ⟨hv, rfl⟩⟩
  | cons param rest ih =>
    rcases candidate_cases sys param v.world with h | ⟨h1, h2, fd, w1, ho, h3⟩
    · rw [tryTransports_skip sys _ _ _ h]; exact ih v hv
    · generalize hp : Config.valueAt param.m_config ['p', 'a', 't', 'h'] = path at *
      rcases h3 with h3 | ⟨h3, t, w2, hc⟩
      · rw [tryTransports_open_failed sys param rest v fd w1 h1 (by rw [hp]; exact h2)
          (by rw [hp]; exact ho) h3, hp]
        obtain ⟨l, e1, e2, e3⟩ := ih
          ⟨v.retTransport, v.negotiateFD, w1, v.log ++ [Event.open_unix_socket path fd]⟩ hv
        refine ⟨Event.open_unix_socket path fd :: l, by rw [e1]; simp, ?_, ?_⟩
        · intro a b c hm
          simp only [List.mem_cons] at hm
          rcases hm with hm | hm
          · cases hm
          · exact e2 a b c hm
        · rcases e3 with e3 | ⟨l', p, f, t, e4, e5⟩
          · exact Or.inl e3
          · exact Or.inr ⟨_ :: l', p, f, t, by rw [e4]; rfl, e5⟩
      · cases hvalid : t.is_valid
        · rw [tryTransports_invalid sys param rest v fd w1 w2 t h1 (by rw [hp]; exact h2)
            (by rw [hp]; exact ho) h3 hc hvalid, hp]
          obtain ⟨l, e1, e2, e3⟩ := ih
            ⟨none, v.negotiateFD, w2,
              v.log ++ [Event.open_unix_socket path fd] ++ [Event.create fd t]⟩ rfl
          refine ⟨Event.open_unix_socket path fd :: Event.create fd t :: l,
            by rw [e1]; simp, ?_, ?_⟩
          · intro a b c hm
            simp only [List.mem_cons] at hm
            rcases hm with hm | hm | hm
            · cases hm
            · cases hm
            · exact e2 a b c hm
          · rcases e3 with e3 | ⟨l', p, f, t', e4, e5⟩
            · exact Or.inl e3
            · exact Or.inr ⟨_ :: _ :: l', p, f, t', by rw [e4]; rfl, e5⟩
        · rw [tryTransports_found sys param rest v fd w1 w2 t h1 (by rw [hp]; exact h2)
            (by rw [hp]; exact ho) h3 hc hvalid, hp]
          refine ⟨[Event.open_unix_socket path fd, Event.create fd t], by simp, ?_, ?_⟩
          · intro a b c hm
            simp only [List.mem_cons, List.mem_singleton] at hm
            rcases hm with hm | hm | hm
            · cases hm
            · cases hm
            · simp at hm
          · exact Or.inr ⟨[], path, fd, t, rfl, h3, hvalid, rfl, rfl⟩

theorem openedPaths_append (a b : List Event) :
    openedPaths (a ++ b) = openedPaths a ++ openedPaths b := by
  induction a with
  | nil => rfl
  | cons e a ih => cases e <;> simp [openedPaths, ih]

theorem unixPaths_skip (param : ParsedTransport) (rest : List ParsedTransport)
    (h : param.m_transportName ≠ ['u', 'n', 'i', 'x'] ∨
      Config.valueAt param.m_config ['p', 'a', 't', 'h'] = []) :
    unixPaths (param :: rest) = unixPaths rest := by
  rw [unixPaths, if_neg]
  rintro ⟨h1, h2⟩
  rcases h with h | h
  · exact h h1
  · exact h2 h

theorem unixPaths_unix (param : ParsedTransport) (rest : List ParsedTransport)
    (h1 : param.m_transportName = ['u', 'n', 'i', 'x'])
    (h2 : Config.valueAt param.m_config ['p', 'a', 't', 'h'] ≠ []) :
    unixPaths (param :: rest) =
      Config.valueAt param.m_config ['p', 'a', 't', 'h'] :: unixPaths rest := by
  rw [unixPaths, if_pos ⟨h1, h2⟩]

theorem mem_unixPaths (ts : List ParsedTransport) (path : Str) (h : path ∈ unixPaths ts) :
    ∃ param ∈ ts, param.m_transportName = ['u', 'n', 'i', 'x'] ∧
      Config.valueAt param.m_config ['p', 'a', 't', 'h'] = path ∧ path ≠ [] := by
  induction ts with
  | nil => simp [unixPaths] at h
  | cons param rest ih =>
    by_cases hc : param.m_transportName = ['u', 'n', 'i', 'x'] ∧
        Config.valueAt param.m_config ['p', 'a', 't', 'h'] ≠ []
    · rw [unixPaths_unix param rest hc.1 hc.2, List.mem_cons] at h
      rcases h with h | h
      · exact ⟨param, List.mem_cons_self _ _, hc.1, h.symm, by rw [h]; exact hc.2⟩
      · obtain ⟨p, hp, hq⟩ := ih h
        exact ⟨p, List.mem_cons_of_mem _ hp, hq⟩
    · rw [unixPaths, if_neg hc] at h
      obtain ⟨p, hp, hq⟩ := ih h
      exact ⟨p, List.mem_cons_of_mem _ hp, hq⟩

theorem truncateAfterFirstUsable_initial (ps : List Str) (w : σ) :
    truncateAfterFirstUsable sys ps w <+: ps := by
  induction ps generalizing w with
  | nil => simp [truncateAfterFirstUsable]
  | cons p ps ih =>
    simp only [truncateAfterFirstUsable]
    split_ifs
    · exact ⟨ps, rfl⟩
    · exact (List.prefix_cons_inj p).mpr (ih _)
    · exact (List.prefix_cons_inj p).mpr (ih _)

theorem openedPaths_tryTransports (ts : List ParsedTransport) (v : LoopVars σ) :
    openedPaths (tryTransports sys ts v).log =
      openedPaths v.log ++ truncateAfterFirstUsable sys (unixPaths ts) v.world := by
  induction ts generalizing v with
  | nil => simp [tryTransports, unixPaths, truncateAfterFirstUsable]
  | cons param rest ih =>
    rcases candidate_cases sys param v.world with h | ⟨h1, h2, fd, w1, ho, h3⟩
    · rw [tryTransports_skip sys _ _ _ h, unixPaths_skip _ _ h, ih]
    · rw [unixPaths_unix param rest h1 h2]
      rcases h3 with h3 | ⟨h3, t, w2, hc⟩
      · rw [tryTransports_open_failed sys param rest v fd w1 h1 h2 ho h3, ih]
        simp [truncateAfterFirstUsable, ho, not_le.mpr h3, openedPaths_append, openedPaths]
      · cases hvalid : t.is_valid
        · rw [tryTransports_invalid sys param rest v fd w1 w2 t h1 h2 ho h3 hc hvalid, ih]
          simp [truncateAfterFirstUsable, ho, h3, hc, hvalid, openedPaths_append, openedPaths]
        · rw [tryTransports_found sys param rest v fd w1 w2 t h1 h2 ho h3 hc hvalid]
          simp [truncateAfterFirstUsable, ho, h3, hc, hvalid, openedPaths_append, openedPaths]

theorem tryTransports_append_of_found (pre post : List ParsedTransport) (v : LoopVars σ)
    (hv : v.retTransport = none)
    (hpre : (tryTransports sys pre v).retTransport ≠ none) :
    tryTransports sys (pre ++ post) v = tryTransports sys pre v := by
  induction pre generalizing v with
  | nil => exact absurd hv hpre
  | cons param pre ih =>
    rcases candidate_cases sys param v.world with h | ⟨h1, h2, fd, w1, ho, h3⟩
    · rw [tryTransports_skip sys _ _ _ h] at hpre ⊢
      rw [List.cons_append, tryTransports_skip sys _ _ _ h, ih _ hv hpre]
    · rcases h3 with h3 | ⟨h3, t, w2, hc⟩
      · rw [tryTransports_open_failed sys param pre v fd w1 h1 h2 ho h3] at hpre ⊢
        rw [List.cons_append, tryTransports_open_failed sys param _ v fd w1 h1 h2 ho h3]
        exact ih _ hv hpre
      · cases hvalid : t.is_valid
        · rw [tryTransports_invalid sys param pre v fd w1 w2 t h1 h2 ho h3 hc hvalid] at hpre ⊢
          rw [List.cons_append,
            tryTransports_invalid sys param _ v fd w1 w2 t h1 h2 ho h3 hc hvalid]
          exact ih _ rfl hpre
        · rw [List.cons_append,
            tryTransports_found sys param _ v fd w1 w2 t h1 h2 ho h3 hc hvalid,
            tryTransports_found sys param _ v fd w1 w2 t h1 h2 ho h3 hc hvalid]

theorem openedPaths_authenticateFound (v : LoopVars σ) :
    openedPaths (authenticateFound sys v).log = openedPaths v.log := by
  unfold authenticateFound
  cases v.retTransport with
  | none => rfl
  | some t =>
    simp only
    split_ifs <;> simp [openedPaths_append, openedPaths]

theorem authenticateFound_withLogPrefix (l : List Event) (v : LoopVars σ) :
    authenticateFound sys (v.withLogPrefix l) =
      { authenticateFound sys v with log := l ++ (authenticateFound sys v).log } := by
  unfold authenticateFound LoopVars.withLogPrefix
  cases v.retTransport with
  | none => rfl
  | some t =>
    simp only
    split_ifs <;> simp

end OpenTransport

/-! ### Properties of `open_transport` -/

/-- C2 as stated fails.  With the collaborators `demoSys` (the peer on `/a`
rejects the authentication, the peer on `/b` accepts it) and the address
`unix:path=/a;unix:path=/b`: the first candidate opens, is valid and is
rejected; the second candidate, tried on its own in the world that the call
leaves, opens, is valid and authenticates; yet `open_transport` returns no
transport and never passes `/b` to `open_unix_socket`. -/
theorem open_transport_fallback_counterexample :
    parseTransports "unix:path=/a;unix:path=/b".toList =
      [{ m_transportName := "unix".toList, m_config := [("path".toList, "/a".toList)] },
       { m_transportName := "unix".toList, m_config := [("path".toList, "/b".toList)] }] ∧
    (open_transport demoSys "unix:path=/a;unix:path=/b".toList []).log =
      [Event.open_unix_socket "/a".toList 3,
       Event.create 3 { fd := 3, is_valid := true, m_serverAddress := [] },
       Event.authenticate 3 true false] ∧
    (open_transport_of demoSys
        [{ m_transportName := "unix".toList, m_config := [("path".toList, "/b".toList)] }]
        (open_transport demoSys "unix:path=/a;unix:path=/b".toList []).world).transport =
      some { fd := 4, is_valid := true, m_serverAddress := [1] } ∧
    (open_transport demoSys "unix:path=/a;unix:path=/b".toList []).transport = none := by
  decide

/-- C2, amended: `open_transport` authenticates only the first candidate
that opens and is valid.  If no candidate of `pre` opens and is valid, the
candidate `param` opens (`fd >= 0`) and is valid, and `authenticate` rejects it
(`success = false`), then `open_transport` on `pre ++ param :: post` returns
no transport and its last call is that `authenticate`: no candidate of `post`
is attempted, whatever it would do.  And `open_transport` returns a transport
exactly when the loop found a valid transport and `authenticate` accepted
it. -/
theorem open_transport_no_fallback {σ : Type} (sys : Sys σ) :
    (∀ (pre post : List ParsedTransport) (param : ParsedTransport) (w w1 w2 w3 : σ)
        (fd : Int) (t : Transport) (resp : Bool × Bool × List Nat),
      (tryTransports sys pre (LoopVars.initial w)).retTransport = none →
      param.m_transportName = ['u', 'n', 'i', 'x'] →
      Config.valueAt param.m_config ['p', 'a', 't', 'h'] ≠ [] →
      open_unix_socket sys (Config.valueAt param.m_config ['p', 'a', 't', 'h'])
        (tryTransports sys pre (LoopVars.initial w)).world = (fd, w1) →
      0 ≤ fd → sys.create fd w1 = (t, w2) → t.is_valid = true →
      sys.authenticate t.fd true w2 = (resp, w3) → resp.1 = false →
      (open_transport_of sys (pre ++ param :: post) w).transport = none ∧
      (open_transport_of sys (pre ++ param :: post) w).world = w3 ∧
      (open_transport_of sys (pre ++ param :: post) w).log =
        (tryTransports sys pre (LoopVars.initial w)).log ++
          [Event.open_unix_socket (Config.valueAt param.m_config ['p', 'a', 't', 'h']) fd,
           Event.create fd t, Event.authenticate t.fd true false]) ∧
    (∀ (ts : List ParsedTransport) (w : σ),
      (open_transport_of sys ts w).transport ≠ none ↔
        ∃ t, (tryTransports sys ts (LoopVars.initial w)).retTransport = some t ∧
          (sys.authenticate t.fd true (tryTransports sys ts (LoopVars.initial w)).world).1.1
            = true) := by
  constructor
  · intro pre post param w w1 w2 w3 fd t resp hpre hname hpath hopen hfd hcreate hvalid
      hauth hrej
    have hrun : tryTransports sys (pre ++ param :: post) (LoopVars.initial w) =
        { retTransport := some t, negotiateFD := true, world := w2,
          log := (tryTransports sys pre (LoopVars.initial w)).log ++
            [Event.open_unix_socket (Config.valueAt param.m_config ['p', 'a', 't', 'h']) fd] ++
            [Event.create fd t] } := by
      rw [tryTransports_append sys pre _ _ hpre,
        tryTransports_found sys param post _ fd w1 w2 t hname hpath hopen hfd hcreate hvalid]
    simp [open_transport_of, hrun, authenticateFound, hauth, hrej]
  · intro ts w
    obtain ⟨l, _, _, h3⟩ := tryTransports_log sys ts (LoopVars.initial w) rfl
    unfold open_transport_of authenticateFound
    rcases h3 with ⟨h3, _⟩ | ⟨l', path, fd, t, _, _, _, h4, h5⟩
    · simp [h3]
    · simp only [h4, h5]
      split_ifs with hr
      · simp [hr]
      · simpa using hr

/-- A witness of the amended C2: `demoSys` on the candidates of
`unix:path=/a;unix:path=/b`, with `pre` empty. -/
theorem open_transport_no_fallback_witness :
    (open_transport_of demoSys
      ([] ++ { m_transportName := ['u', 'n', 'i', 'x'],
               m_config := [(['p', 'a', 't', 'h'], ['/', 'a'])] } ::
        [{ m_transportName := ['u', 'n', 'i', 'x'],
           m_config := [(['p', 'a', 't', 'h'], ['/', 'b'])] }]) []).transport = none :=
  ((open_transport_no_fallback demoSys).1 []
    [{ m_transportName := ['u', 'n', 'i', 'x'],
       m_config := [(['p', 'a', 't', 'h'], ['/', 'b'])] }]
    { m_transportName := ['u', 'n', 'i', 'x'],
      m_config := [(['p', 'a', 't', 'h'], ['/', 'a'])] }
    [] [['/', 'a']] [['/', 'a']] [['/', 'a']] 3
    { fd := 3, is_valid := true, m_serverAddress := [] } (false, false, [1])
    (by decide) (by decide) (by decide) (by decide) (by decide) (by decide) (by decide)
    (by decide) (by decide)).1

/-- The shape of the log of `open_transport_of`: the calls of the loop, none of
them `authenticate`, followed by one `authenticate` when the loop found a
transport. -/
theorem open_transport_of_log {σ : Type} (sys : Sys σ) (ts : List ParsedTransport) (w : σ) :
    ((open_transport_of sys ts w).transport = none ∧
      ∀ fd n s, Event.authenticate fd n s ∉ (open_transport_of sys ts w).log) ∨
    ∃ l path fd t s, (open_transport_of sys ts w).log =
        l ++ [Event.open_unix_socket path fd, Event.create fd t,
              Event.authenticate t.fd true s] ∧
      (∀ a b c, Event.authenticate a b c ∉ l) ∧ 0 ≤ fd ∧ t.is_valid = true ∧
      path ∈ unixPaths ts ∧
      ((s = false ∧ (open_transport_of sys ts w).transport = none) ∨
        (s = true ∧ ∃ t', (open_transport_of sys ts w).transport = some t' ∧
          t'.fd = t.fd ∧ t'.is_valid = true)) := by
  obtain ⟨l, h1, h2, h3⟩ := tryTransports_log sys ts (LoopVars.initial w) rfl
  have hop := openedPaths_tryTransports sys ts (LoopVars.initial w)
  replace h1 : (tryTransports sys ts (LoopVars.initial w)).log = l := h1
  rcases h3 with ⟨h3, _⟩ | ⟨l', path, fd, t, e, hfd, hvalid, h4, h5⟩
  · left
    simp only [open_transport_of, authenticateFound, h3, h1]
    exact ⟨trivial, h2⟩
  · right
    have hl' : ∀ a b c, Event.authenticate a b c ∉ l' := fun a b c hm =>
      h2 a b c (by rw [e]; exact List.mem_append_left _ hm)
    have hpath : path ∈ unixPaths ts := by
      have hmem : path ∈ openedPaths (tryTransports sys ts (LoopVars.initial w)).log := by
        rw [h1, e, openedPaths_append]
        simp [openedPaths]
      rw [hop] at hmem
      simp only [LoopVars.initial, openedPaths, List.nil_append] at hmem
      exact (truncateAfterFirstUsable_initial sys _ _).subset hmem
    refine ⟨l', path, fd, t,
      (sys.authenticate t.fd true (tryTransports sys ts (LoopVars.initial w)).world).1.1,
      ?_, hl', hfd, hvalid, hpath, ?_⟩
    · simp only [open_transport_of, authenticateFound, h4, h5, h1, e]
      split_ifs <;> simp
    · simp only [open_transport_of, authenticateFound, h4, h5]
      split_ifs with hr
      · exact Or.inl ⟨hr, rfl⟩
      · exact Or.inr ⟨by simpa using hr, _, rfl, rfl, hvalid⟩

/-- C7: for every address and every behaviour of the collaborators, a
transport returned by `open_transport` comes from a `unix` candidate of the
address whose socket opened (`fd >= 0`), whose transport was valid, and on
whose descriptor `authenticate` returned success; whenever `authenticate`
returned `success = false` the result is null; and `authenticate` is only ever
called as the last call, right after the `open_unix_socket` that gave a
descriptor and the `create` of a valid transport on it. -/
theorem open_transport_sound {σ : Type} (sys : Sys σ) (address : Str) (w : σ) :
    (∀ t', (open_transport sys address w).transport = some t' →
      ∃ l path fd t, (open_transport sys address w).log =
          l ++ [Event.open_unix_socket path fd, Event.create fd t,
                Event.authenticate t.fd true true] ∧
        (∃ param ∈ parseTransports address,
          param.m_transportName = ['u', 'n', 'i', 'x'] ∧
          Config.valueAt param.m_config ['p', 'a', 't', 'h'] = path) ∧
        0 ≤ fd ∧ t.is_valid = true ∧ t'.fd = t.fd) ∧
    (∀ fd n, Event.authenticate fd n false ∈ (open_transport sys address w).log →
      (open_transport sys address w).transport = none) ∧
    (∀ l1 l2 fdA n s, (open_transport sys address w).log =
        l1 ++ Event.authenticate fdA n s :: l2 →
      l2 = [] ∧ ∃ l path fd t, l1 = l ++ [Event.open_unix_socket path fd, Event.create fd t] ∧
        0 ≤ fd ∧ t.is_valid = true ∧ t.fd = fdA) := by
  unfold open_transport
  rcases open_transport_of_log sys (parseTransports address) w with
    ⟨h1, h2⟩ | ⟨l, path, fd, t, s, hlog, hl, hfd, hvalid, hpath, hs⟩
  · refine ⟨?_, ?_, ?_⟩
    · intro t' ht'; rw [h1] at ht'; cases ht'
    · intro _ _ _; exact h1
    · intro l1 l2 fdA n s hl
      exact absurd (by rw [hl]; simp) (h2 fdA n s)
  · have hsplit : ∀ l1 l2 fdA n s', l ++ [Event.open_unix_socket path fd, Event.create fd t,
          Event.authenticate t.fd true s] = l1 ++ Event.authenticate fdA n s' :: l2 →
        l2 = [] ∧ l1 = l ++ [Event.open_unix_socket path fd, Event.create fd t] ∧
          fdA = t.fd ∧ s' = s := by
      intro l1 l2 fdA n s' h
      have h' : (l ++ [Event.open_unix_socket path fd, Event.create fd t]) ++
          [Event.authenticate t.fd true s] = l1 ++ Event.authenticate fdA n s' :: l2 := by
        simpa using h
      rcases List.eq_nil_or_concat l2 with hnil | ⟨l2', e, rfl⟩
      · subst hnil
        have := List.append_inj' h' rfl
        obtain ⟨ha, hb⟩ := this
        simp only [List.cons.injEq, Event.authenticate.injEq, and_true] at hb
        exact ⟨rfl, ha.symm, hb.1.symm, hb.2.2.symm⟩
      · exfalso
        have hsnoc : (l ++ [Event.open_unix_socket path fd, Event.create fd t]) ++
            [Event.authenticate t.fd true s] =
            (l1 ++ Event.authenticate fdA n s' :: l2') ++ [e] := by
          rw [h']; simp
        have := (List.append_inj' hsnoc rfl).1
        have hmem : Event.authenticate fdA n s' ∈
            l ++ [Event.open_unix_socket path fd, Event.create fd t] := by
          rw [this]; simp
        rw [List.mem_append] at hmem
        rcases hmem with hmem | hmem
        · exact hl _ _ _ hmem
        · simp at hmem
    refine ⟨?_, ?_, ?_⟩
    · intro t' ht'
      rcases hs with ⟨_, hnone⟩ | ⟨hs, t'', hsome, hfd', _⟩
      · rw [hnone] at ht'; cases ht'
      · rw [hsome] at ht'
        cases ht'
        obtain ⟨param, hmem, hname, hval, _⟩ := mem_unixPaths _ path hpath
        exact ⟨l, path, fd, t, by rw [hlog, hs], ⟨param, hmem, hname, hval⟩, hfd, hvalid, hfd'⟩
    · intro fdA n hmem
      rcases hs with ⟨_, hnone⟩ | ⟨hs, _⟩
      · exact hnone
      · exfalso
        rw [hlog, List.mem_append] at hmem
        rcases hmem with hmem | hmem
        · exact hl _ _ _ hmem
        · simp [hs] at hmem
    · intro l1 l2 fdA n s' h
      rw [hlog] at h
      obtain ⟨e1, e2, e3, _⟩ := hsplit l1 l2 fdA n s' h
      exact ⟨e1, l, path, fd, t, e2, hfd, hvalid, e3.symm⟩

/-- A witness of C7: with `demoSys`, the address
`unix:path=/stale;unix:path=/b` returns the transport on descriptor 4, and the
log ends with the successful open, the valid create and the accepted
authenticate of that descriptor. -/
theorem open_transport_sound_witness :
    ∃ l path fd t, (open_transport demoSys "unix:path=/stale;unix:path=/b".toList []).log =
        l ++ [Event.open_unix_socket path fd, Event.create fd t,
              Event.authenticate t.fd true true] ∧
      (∃ param ∈ parseTransports "unix:path=/stale;unix:path=/b".toList,
        param.m_transportName = ['u', 'n', 'i', 'x'] ∧
        Config.valueAt param.m_config ['p', 'a', 't', 'h'] = path) ∧
      0 ≤ fd ∧ t.is_valid = true ∧
      ({ fd := 4, is_valid := true, m_serverAddress := [1] } : Transport).fd = t.fd :=
  (open_transport_sound demoSys "unix:path=/stale;unix:path=/b".toList []).1
    { fd := 4, is_valid := true, m_serverAddress := [1] } (by decide)

/-- C8: when no candidate of `pre` opens and is valid and the `unix` candidate
`param` opens (`fd >= 0`) but its transport reports `is_valid() = false`, that
transport is dropped: the calls made up to there contain no `authenticate`,
and the outcome of `open_transport` on `pre ++ param :: rest` is the outcome of
`open_transport` on the later candidates `rest`, run from the world that the
discarded attempt leaves, with the earlier calls in front of its log. -/
theorem open_transport_discards_invalid {σ : Type} (sys : Sys σ)
    (pre rest : List ParsedTransport) (param : ParsedTransport) (w w1 w2 : σ)
    (fd : Int) (t : Transport)
    (hpre : (tryTransports sys pre (LoopVars.initial w)).retTransport = none)
    (hname : param.m_transportName = ['u', 'n', 'i', 'x'])
    (hpath : Config.valueAt param.m_config ['p', 'a', 't', 'h'] ≠ [])
    (hopen : open_unix_socket sys (Config.valueAt param.m_config ['p', 'a', 't', 'h'])
      (tryTransports sys pre (LoopVars.initial w)).world = (fd, w1))
    (hfd : 0 ≤ fd) (hcreate : sys.create fd w1 = (t, w2)) (hvalid : t.is_valid = false) :
    (open_transport_of sys (pre ++ param :: rest) w).transport =
      (open_transport_of sys rest w2).transport ∧
    (open_transport_of sys (pre ++ param :: rest) w).world =
      (open_transport_of sys rest w2).world ∧
    (open_transport_of sys (pre ++ param :: rest) w).log =
      (tryTransports sys pre (LoopVars.initial w)).log ++
        [Event.open_unix_socket (Config.valueAt param.m_config ['p', 'a', 't', 'h']) fd,
         Event.create fd t] ++
        (open_transport_of sys rest w2).log ∧
    ∀ a b c, Event.authenticate a b c ∉
      (tryTransports sys pre (LoopVars.initial w)).log ++
        [Event.open_unix_socket (Config.valueAt param.m_config ['p', 'a', 't', 'h']) fd,
         Event.create fd t] := by
  obtain ⟨l, h1, h2, h3⟩ := tryTransports_log sys pre (LoopVars.initial w) rfl
  replace h1 : (tryTransports sys pre (LoopVars.initial w)).log = l := h1
  have hneg : (tryTransports sys pre (LoopVars.initial w)).negotiateFD = false := by
    rcases h3 with ⟨_, h⟩ | ⟨_, _, _, _, _, _, _, h, _⟩
    · exact h
    · rw [hpre] at h; cases h
  have hrun : tryTransports sys (pre ++ param :: rest) (LoopVars.initial w) =
      (tryTransports sys rest (LoopVars.initial w2)).withLogPrefix
        ((tryTransports sys pre (LoopVars.initial w)).log ++
          [Event.open_unix_socket (Config.valueAt param.m_config ['p', 'a', 't', 'h']) fd,
           Event.create fd t]) := by
    rw [tryTransports_append sys pre _ _ hpre,
      tryTransports_invalid sys param rest _ fd w1 w2 t hname hpath hopen hfd hcreate hvalid,
      ← tryTransports_withLogPrefix, hneg]
    simp [LoopVars.withLogPrefix, LoopVars.initial]
  refine ⟨?_, ?_, ?_, ?_⟩
  · simp only [open_transport_of, hrun, authenticateFound_withLogPrefix]
  · simp only [open_transport_of, hrun, authenticateFound_withLogPrefix]
  · simp only [open_transport_of, hrun, authenticateFound_withLogPrefix]
  · intro a b c hm
    rw [h1, List.mem_append] at hm
    rcases hm with hm | hm
    · exact h2 a b c hm
    · simp at hm

/-- A witness of C8: with `demoSys`, the candidate for `/stale` opens on
descriptor 3 and is not valid; the outcome on the candidates of
`unix:path=/stale;unix:path=/b` is that of the candidate for `/b` alone. -/
theorem open_transport_discards_invalid_witness :
    (open_transport_of demoSys
      ([] ++ { m_transportName := ['u', 'n', 'i', 'x'],
               m_config := [(['p', 'a', 't', 'h'], ['/', 's', 't', 'a', 'l', 'e'])] } ::
        [{ m_transportName := ['u', 'n', 'i', 'x'],
           m_config := [(['p', 'a', 't', 'h'], ['/', 'b'])] }]) []).transport =
    (open_transport_of demoSys
      [{ m_transportName := ['u', 'n', 'i', 'x'],
         m_config := [(['p', 'a', 't', 'h'], ['/', 'b'])] }]
      [['/', 's', 't', 'a', 'l', 'e']]).transport :=
  (open_transport_discards_invalid demoSys []
    [{ m_transportName := ['u', 'n', 'i', 'x'],
       m_config := [(['p', 'a', 't', 'h'], ['/', 'b'])] }]
    { m_transportName := ['u', 'n', 'i', 'x'],
      m_config := [(['p', 'a', 't', 'h'], ['/', 's', 't', 'a', 'l', 'e'])] }
    [] [['/', 's', 't', 'a', 'l', 'e']] [['/', 's', 't', 'a', 'l', 'e']] 3
    { fd := 3, is_valid := false, m_serverAddress := [] }
    (by decide) (by decide) (by decide) (by decide) (by decide) (by decide) (by decide)).1

/-- C9: for every candidate list, the paths that `open_transport` passes to
`open_unix_socket` are exactly the non-empty `path` values of the candidates
named `unix`, in candidate order, truncated after the first one that opens
(`fd >= 0`) and is valid, so they are an initial part of that list; a
candidate with another name, or with a missing or empty `path`, goes through
the loop without any call; and once a candidate has opened and is valid, the
candidates after it change nothing. -/
theorem open_transport_open_order {σ : Type} (sys : Sys σ) (ts : List ParsedTransport)
    (w : σ) :
    openedPaths (open_transport_of sys ts w).log =
      truncateAfterFirstUsable sys (unixPaths ts) w ∧
    openedPaths (open_transport_of sys ts w).log <+: unixPaths ts ∧
    (∀ (param : ParsedTransport) (v : LoopVars σ),
      (param.m_transportName ≠ ['u', 'n', 'i', 'x'] ∨
        Config.valueAt param.m_config ['p', 'a', 't', 'h'] = []) →
      tryTransports sys (param :: ts) v = tryTransports sys ts v) ∧
    (∀ later : List ParsedTransport,
      (tryTransports sys ts (LoopVars.initial w)).retTransport ≠ none →
      tryTransports sys (ts ++ later) (LoopVars.initial w) =
        tryTransports sys ts (LoopVars.initial w)) := by
  have h : openedPaths (open_transport_of sys ts w).log =
      truncateAfterFirstUsable sys (unixPaths ts) w := by
    unfold open_transport_of
    rw [openedPaths_authenticateFound, openedPaths_tryTransports]
    rfl
  refine ⟨h, ?_, ?_, ?_⟩
  · rw [h]; exact truncateAfterFirstUsable_initial sys _ _
  · intro param v hskip
    exact tryTransports_skip sys param ts v hskip
  · intro later hfound
    exact tryTransports_append_of_found sys ts later _ rfl hfound

section

set_option maxRecDepth 8000

/-- A witness of C9: with `demoSys`, of the candidates of
`tcp:host=h;unix:path=;unix:path=/down;unix:path=/stale;unix:path=/a;unix:path=/b`
the paths `/down`, `/stale` and `/a` are passed to `open_unix_socket`, in that
order, and `/b` is not. -/
theorem open_transport_open_order_witness :
    openedPaths (open_transport demoSys
      "tcp:host=h;unix:path=;unix:path=/down;unix:path=/stale;unix:path=/a;unix:path=/b".toList
      []).log = ["/down".toList, "/stale".toList, "/a".toList] :=
  (open_transport_open_order demoSys (parseTransports
    "tcp:host=h;unix:path=;unix:path=/down;unix:path=/stale;unix:path=/a;unix:path=/b".toList)
    []).1.trans (by decide)

end

/-! ### Bulk extraction -/

/-- C10: for every cursor state and every bound on the iterations, the
conversion to `std::vector<T>` throws `ErrorInvalidTypecast` when `is_array()`
is false, and the conversion to `std::map<Key,Data>` throws
`ErrorInvalidTypecast` when `is_dict()` is false; in both cases the memory of
the iterators is unchanged and no `recurse()`, extraction or `next()` has been
added to the calls. -/
theorem bulk_extraction_rejects_wrong_kind {It σ T Key Data : Type} [LinearOrder Key]
    (ops : IterOps It σ) (cast : Cast It σ T) (castKey : Cast It σ Key)
    (castData : Cast It σ Data) (fuel : Nat) (it : It) (s : IterState It σ) :
    (ops.is_array it s.mem = false →
      operator_vector ops cast fuel it s =
        (Result.thrown (Exception.ErrorInvalidTypecast
          "VariantIterator: Extracting non array into std::vector"), s)) ∧
    (ops.is_dict it s.mem = false →
      operator_map ops castKey castData fuel it s =
        (Result.thrown (Exception.ErrorInvalidTypecast
          "MessageIterator: Extracting non dict into std::map"), s)) := by
  constructor
  · intro h
    simp [operator_vector, h]
  · intro h
    simp [operator_map, h]

/-- A witness of C10: an example cursor that stands on an `int32` is neither an
array nor a dict, and both conversions throw with no call made. -/
theorem bulk_extraction_rejects_wrong_kind_witness :
    ((operator_vector demoOps demoInt32 5 0
        { mem := [[DemoValue.int32 7]], calls := [] }).1 =
      Result.thrown (Exception.ErrorInvalidTypecast
        "VariantIterator: Extracting non array into std::vector") ∧
     (operator_vector demoOps demoInt32 5 0
        { mem := [[DemoValue.int32 7]], calls := [] }).2.calls = []) ∧
    ((operator_map demoOps demoInt32 demoInt32 5 0
        { mem := [[DemoValue.int32 7]], calls := [] }).1 =
      Result.thrown (Exception.ErrorInvalidTypecast
        "MessageIterator: Extracting non dict into std::map") ∧
     (operator_map demoOps demoInt32 demoInt32 5 0
        { mem := [[DemoValue.int32 7]], calls := [] }).2.calls = []) :=
  have h := bulk_extraction_rejects_wrong_kind demoOps demoInt32 demoInt32 demoInt32 5 0
    { mem := [[DemoValue.int32 7]], calls := [] }
  ⟨⟨congrArg Prod.fst (h.1 rfl), congrArg (fun r => r.2.calls) (h.1 rfl)⟩,
   ⟨congrArg Prod.fst (h.2 rfl), congrArg (fun r => r.2.calls) (h.2 rfl)⟩⟩

/-! ### Array extraction -/

theorem vectorLoop_ranges {It σ T : Type} (ops : IterOps It σ) (cast : Cast It σ T)
    (sub : It) (es : List T) (m m' : σ) (hr : RangesOver ops cast sub m es m')
    (fuel : Nat) (hfuel : es.length ≤ fuel) (acc : List T) (calls : List (IterCall It)) :
    vectorLoop ops cast sub fuel acc { mem := m, calls := calls } =
      (Result.value (acc ++ es),
        { mem := m', calls := calls ++ extractCalls sub es.length }) := by
  induction hr generalizing fuel acc calls with
  | done m hv =>
    cases fuel <;> simp [vectorLoop, hv, extractCalls]
  | step m m1 m' e es hv hc _ ih =>
    cases fuel with
    | zero => simp at hfuel
    | succ fuel =>
      have hfuel' : es.length ≤ fuel := by simpa using hfuel
      simp only [vectorLoop, hv, if_true, operator_shift, hc]
      rw [ih fuel hfuel']
      simp [extractCalls]

theorem next_not_mem_extractCalls {It : Type} (sub it : It) (h : sub ≠ it) (n : Nat) :
    IterCall.next it ∉ extractCalls sub n := by
  induction n with
  | zero => simp [extractCalls]
  | succ n ih =>
    simp only [extractCalls, List.mem_cons, not_or]
    exact ⟨by simp, by simpa using fun e => h e.symm, ih⟩

theorem count_extract_extractCalls {It : Type} [DecidableEq It] (sub : It) (n : Nat) :
    (extractCalls sub n).count (IterCall.extract sub) = n ∧
    (extractCalls sub n).count (IterCall.next sub) = n := by
  induction n with
  | zero => simp [extractCalls]
  | succ n ih => simp [extractCalls, List.count_cons, ih.1, ih.2]

/-- C11: for every cursor `it` on an array whose sub-cursor `sub` (from
`recurse()`) ranges over the elements `es` (valid at each of them, invalid
after the `next()` at the last; `es` may be empty), the conversion to
`std::vector<T>`, given at least as many iterations as there are elements,
returns exactly `es` in order; the calls it makes are the `recurse()` on `it`
followed by one extraction and one `next()` on `sub` per element, and no
`next()` on the parent `it`. -/
theorem operator_vector_returns_elements {It σ T : Type} [DecidableEq It]
    (ops : IterOps It σ) (cast : Cast It σ T) (it sub : It) (s : IterState It σ)
    (m m' : σ) (es : List T)
    (harray : ops.is_array it s.mem = true)
    (hrecurse : ops.recurse it s.mem = (Except.ok sub, m))
    (hranges : RangesOver ops cast sub m es m')
    (fuel : Nat) (hfuel : es.length ≤ fuel) :
    operator_vector ops cast fuel it s =
      (Result.value es,
        { mem := m',
          calls := s.calls ++ [IterCall.recurse it] ++ extractCalls sub es.length }) ∧
    (extractCalls sub es.length).count (IterCall.extract sub) = es.length ∧
    (extractCalls sub es.length).count (IterCall.next sub) = es.length ∧
    (sub ≠ it → IterCall.next it ∉ [IterCall.recurse it] ++ extractCalls sub es.length) := by
  refine ⟨?_, (count_extract_extractCalls sub _).1, (count_extract_extractCalls sub _).2, ?_⟩
  · simp only [operator_vector, harray, Bool.not_true, hrecurse]
    rw [if_neg (by simp), vectorLoop_ranges ops cast sub es m m' hranges fuel hfuel]
    simp
  · intro hne hmem
    simp only [List.singleton_append, List.mem_cons] at hmem
    rcases hmem with hmem | hmem
    · cases hmem
    · exact next_not_mem_extractCalls sub it hne _ hmem

/-- A witness of C11: the example cursor on the array of the two `int32`
values 7 and 9 gives the vector `[7, 9]`. -/
theorem operator_vector_returns_elements_witness :
    (operator_vector demoOps demoInt32 2 0
      { mem := [[DemoValue.array [DemoValue.int32 7, DemoValue.int32 9]]], calls := [] }).1 =
      Result.value [7, 9] :=
  congrArg Prod.fst
    (operator_vector_returns_elements demoOps demoInt32 0 1
      { mem := [[DemoValue.array [DemoValue.int32 7, DemoValue.int32 9]]], calls := [] }
      [[DemoValue.array [DemoValue.int32 7, DemoValue.int32 9]],
       [DemoValue.int32 7, DemoValue.int32 9]]
      [[DemoValue.array [DemoValue.int32 7, DemoValue.int32 9]], []]
      [7, 9] rfl rfl
      (RangesOver.step _ _ _ 7 [9] rfl rfl
        (RangesOver.step _ _ _ 9 [] rfl rfl (RangesOver.done _ rfl)))
      2 (by decide)).1

/-! ### Dictionary extraction -/

theorem mapOuterLoop_entries {It σ Key Data : Type} [LinearOrder Key] (ops : IterOps It σ)
    (castKey : Cast It σ Key) (castData : Cast It σ Data) (sub : It)
    (es : List (Key × Data)) (m m' : σ) (cs : List (IterCall It))
    (hr : EntriesOver ops castKey castData sub m es m' cs)
    (fuel n : Nat) (hfuel : 1 ≤ fuel) (hn : es.length ≤ n) (dict : StdMap Key Data)
    (calls : List (IterCall It)) :
    mapOuterLoop ops castKey castData sub fuel n dict { mem := m, calls := calls } =
      (Result.value (es.foldl (fun c p => StdMap.set p.1 p.2 c) dict),
        { mem := m', calls := calls ++ cs }) := by
  induction hr generalizing n dict calls with
  | done m hv =>
    cases n <;> simp [mapOuterLoop, hv]
  | step m m1 m2 m3 m' ss k d es cs hv hrec hv1 hk hd _ hv3 _ ih =>
    cases n with
    | zero => simp at hn
    | succ n =>
      have hn' : es.length ≤ n := by simpa using hn
      obtain ⟨f, rfl⟩ : ∃ f, fuel = f + 1 := ⟨fuel - 1, by omega⟩
      have hinner : mapInnerLoop ops castKey castData ss (f + 1) dict
          { mem := m1, calls := calls ++ [IterCall.recurse sub] } =
          (Result.value (StdMap.set k d dict),
            { mem := (ops.next ss (ops.next ss m3).2).2,
              calls := calls ++ [IterCall.recurse sub, IterCall.extract ss, IterCall.next ss,
                IterCall.extract ss, IterCall.next ss, IterCall.next ss] }) := by
        simp only [mapInnerLoop, hv1, if_true, operator_shift, hk, hd]
        cases f <;> simp [mapInnerLoop, hv3]
      simp only [mapOuterLoop, hv, if_true, hrec, hinner]
      rw [ih n hn']
      simp [entryCalls]

/-- C12: for every cursor `it` on a dict whose entries, in order, are `es`
(each entry's sub-cursor yielding exactly a key element followed by a value
element), the conversion to `std::map<Key,Data>`, given at least one iteration
and at least as many as there are entries, returns a map whose key set is
exactly the set of the keys of `es`, in which no key occurs twice, and which
sends each key to the value of its last occurrence in `es`. -/
theorem operator_map_last_key_wins {It σ Key Data : Type} [LinearOrder Key]
    (ops : IterOps It σ) (castKey : Cast It σ Key) (castData : Cast It σ Data)
    (it sub : It) (s : IterState It σ) (m m' : σ) (es : List (Key × Data))
    (cs : List (IterCall It))
    (hdict : ops.is_dict it s.mem = true)
    (hrecurse : ops.recurse it s.mem = (Except.ok sub, m))
    (hentries : EntriesOver ops castKey castData sub m es m' cs)
    (fuel : Nat) (hfuel : 1 ≤ fuel) (hlen : es.length ≤ fuel) :
    ∃ dict : StdMap Key Data,
      operator_map ops castKey castData fuel it s =
        (Result.value dict,
          { mem := m', calls := s.calls ++ [IterCall.recurse it] ++ cs }) ∧
      (∀ k, k ∈ StdMap.keys dict ↔ ∃ p ∈ es, p.1 = k) ∧
      (StdMap.keys dict).Nodup ∧
      ∀ (j : Nat) (hj : j < es.length),
        (∀ (j' : Nat) (hj' : j' < es.length), j < j' → es[j'].1 ≠ es[j].1) →
        StdMap.find es[j].1 dict = some es[j].2 := by
  refine ⟨StdMap.ofPairs es, ?_, ?_, ?_, ?_⟩
  · simp only [operator_map, hdict, Bool.not_true, hrecurse]
    rw [if_neg (by simp),
      mapOuterLoop_entries ops castKey castData sub es m m' cs hentries fuel fuel hfuel hlen]
    simp [StdMap.ofPairs]
  · intro k
    have := StdMap.mem_keys_foldl_set es [] k
    simpa [StdMap.ofPairs, StdMap.keys] using this
  · have h : StdMap.Sorted (StdMap.ofPairs es) := StdMap.sorted_ofPairs es
    exact (List.Pairwise.imp (fun hab => ne_of_lt hab) h)
  · intro j hj hlast
    exact StdMap.find_foldl_set_last es [] j hj hlast

/-- A witness of C12: the example cursor on the dict with the entries
`7 -> 9` and `7 -> 3` gives a map that sends 7 to 3. -/
theorem operator_map_last_key_wins_witness :
    ∃ dict : StdMap Int Int,
      (operator_map demoOps demoInt32 demoInt32 2 0
        { mem := [[DemoValue.dict [(DemoValue.int32 7, DemoValue.int32 9),
                                   (DemoValue.int32 7, DemoValue.int32 3)]]],
          calls := [] }).1 = Result.value dict ∧
      StdMap.find 7 dict = some 3 := by
  obtain ⟨dict, h1, _, _, h4⟩ := operator_map_last_key_wins demoOps demoInt32 demoInt32 0 1
    { mem := [[DemoValue.dict [(DemoValue.int32 7, DemoValue.int32 9),
                               (DemoValue.int32 7, DemoValue.int32 3)]]],
      calls := [] } _ _ [(7, 9), (7, 3)] _ rfl rfl
    (EntriesOver.step _ _ _ _ _ 2 7 9 _ _ rfl rfl rfl rfl rfl rfl rfl
      (EntriesOver.step _ _ _ _ _ 3 7 3 _ _ rfl rfl rfl rfl rfl rfl rfl
        (EntriesOver.done _ rfl)))
    2 (by decide) (by decide)
  refine ⟨dict, congrArg Prod.fst h1, ?_⟩
  exact h4 1 (by decide) (by intro j' hj' hlt; simp at hj'; omega)

/-! ### The calling protocol of `next()` -/

theorem nextProtocolFrom_adjacent {It : Type} [DecidableEq It] (x : It)
    (a b : List (IterCall It)) (pending : List It) :
    nextProtocolFrom pending (a ++ IterCall.next x :: IterCall.next x :: b) = false := by
  induction a generalizing pending with
  | nil =>
    simp only [List.nil_append, nextProtocolFrom]
    by_cases hx : x ∈ pending
    · simp [hx]
    · simp [hx]
  | cons c a ih =>
    cases c with
    | recurse it => simpa [nextProtocolFrom] using ih pending
    | extract it => simpa [nextProtocolFrom] using ih _
    | next it =>
      simp only [List.cons_append, nextProtocolFrom]
      split_ifs
      · rfl
      · exact ih _

/-- The calls of the conversion to `std::map<Key,Data>` on a dict with at
least one entry break the rule of `next()`, whatever the collaborators are. -/
theorem entries_break_next_protocol {It σ Key Data : Type} [DecidableEq It]
    (ops : IterOps It σ) (castKey : Cast It σ Key) (castData : Cast It σ Data) (sub : It)
    (es : List (Key × Data)) (m m' : σ) (cs : List (IterCall It))
    (hr : EntriesOver ops castKey castData sub m es m' cs) (hne : es ≠ [])
    (pre : List (IterCall It)) :
    respectsNextProtocol (pre ++ cs) = false := by
  cases hr with
  | done m hv => exact absurd rfl hne
  | step m m1 m2 m3 m' ss k d es cs =>
    have h := nextProtocolFrom_adjacent ss
      (pre ++ [IterCall.recurse sub, IterCall.extract ss, IterCall.next ss,
        IterCall.extract ss]) (IterCall.next sub :: cs) []
    simpa [respectsNextProtocol, entryCalls] using h

/-- C13 fails on the code.  The conversion to `std::map<Key,Data>` of the
example cursor on the dict with the one entry `7 -> 9` makes the calls below:
on the entry's sub-iterator 2, the `next()` of the second `operator>>` is
followed at once by the `next()` that closes the inner loop body, with no
extraction in between.  The conversion to `std::vector<T>` of the example
array keeps the rule. -/
theorem operator_map_next_twice :
    (operator_map demoOps demoInt32 demoInt32 2 0
      { mem := [[DemoValue.dict [(DemoValue.int32 7, DemoValue.int32 9)]]],
        calls := [] }).2.calls =
      [IterCall.recurse 0, IterCall.recurse 1, IterCall.extract 2, IterCall.next 2,
       IterCall.extract 2, IterCall.next 2, IterCall.next 2, IterCall.next 1] ∧
    respectsNextProtocol (operator_map demoOps demoInt32 demoInt32 2 0
      { mem := [[DemoValue.dict [(DemoValue.int32 7, DemoValue.int32 9)]]],
        calls := [] }).2.calls = false ∧
    respectsNextProtocol (operator_vector demoOps demoInt32 2 0
      { mem := [[DemoValue.array [DemoValue.int32 7, DemoValue.int32 9]]],
        calls := [] }).2.calls = true := by
  decide

/-! ### Stream extraction -/

/-- C15: when the conversion of the current element to `T` gives `v`, the
extraction `it >> v` assigns that value, then calls `next()` on `it` exactly
once, after the conversion, and nothing else; when the conversion throws,
`next()` is not called.  So `it >> a >> b`, at an element that converts to `a`
and is followed by an element that converts to `b`, assigns these two
consecutive elements and calls `next()` once after each. -/
theorem operator_shift_reads_then_advances {It σ T A B : Type} [DecidableEq It]
    (ops : IterOps It σ) (cast : Cast It σ T) (castA : Cast It σ A) (castB : Cast It σ B)
    (it : It) (s : IterState It σ) :
    (∀ (v : T) (m : σ), cast it s.mem = (Except.ok v, m) →
      operator_shift ops cast it s =
        (Result.value v,
          { mem := (ops.next it m).2,
            calls := s.calls ++ [IterCall.extract it, IterCall.next it] }) ∧
      [IterCall.extract it, IterCall.next it].count (IterCall.next it) = 1) ∧
    (∀ (e : Exception) (m : σ), cast it s.mem = (Except.error e, m) →
      operator_shift ops cast it s =
        (Result.thrown e, { mem := m, calls := s.calls ++ [IterCall.extract it] })) ∧
    (∀ (a : A) (b : B) (m1 m2 : σ), castA it s.mem = (Except.ok a, m1) →
      castB it (ops.next it m1).2 = (Except.ok b, m2) →
      operator_shift_twice ops castA castB it s =
        (Result.value (a, b),
          { mem := (ops.next it m2).2,
            calls := s.calls ++ [IterCall.extract it, IterCall.next it,
              IterCall.extract it, IterCall.next it] })) := by
  refine ⟨?_, ?_, ?_⟩
  · intro v m h
    exact ⟨by simp [operator_shift, h], by simp [List.count_cons]⟩
  · intro e m h
    simp [operator_shift, h]
  · intro a b m1 m2 h1 h2
    simp [operator_shift_twice, operator_shift, h1, h2]

/-- A witness of C15: on the example cursor over the elements 7 and 9,
`it >> a >> b` gives the pair (7, 9) and leaves the cursor invalid. -/
theorem operator_shift_reads_then_advances_witness :
    operator_shift_twice demoOps demoInt32 demoInt32 0
      { mem := [[DemoValue.int32 7, DemoValue.int32 9]], calls := [] } =
      (Result.value (7, 9),
        { mem := (demoOps.next 0 [[DemoValue.int32 9]]).2,
          calls := [] ++ [IterCall.extract 0, IterCall.next 0,
            IterCall.extract 0, IterCall.next 0] }) :=
  (operator_shift_reads_then_advances demoOps demoInt32 demoInt32 demoInt32 0
    { mem := [[DemoValue.int32 7, DemoValue.int32 9]], calls := [] }).2.2
    7 9 [[DemoValue.int32 7, DemoValue.int32 9]] [[DemoValue.int32 9]] rfl rfl

/-! ### Records without a name, and option maps -/

/-- C14 fails on the code.  The address `:a=b;` has no transport name, and
`parseTransports` returns one record for it, with the empty name: the `;`
pushes the record without the test for a non-empty name that guards the push
after the loop (by that test `:a=b` gives no record). -/
theorem parseTransports_empty_name_record :
    parseTransports ":a=b;".toList =
      [{ m_transportName := [], m_config := [("a".toList, "b".toList)] }] ∧
    parseTransports ":a=b".toList = [] := by
  decide

theorem StdMap.set_ne_nil {K D : Type} [LinearOrder K] (k : K) (v : D) (m : StdMap K D) :
    StdMap.set k v m ≠ [] := by
  cases m with
  | nil => simp [StdMap.set]
  | cons e m => obtain ⟨k1, v1⟩ := e; simp only [StdMap.set]; split_ifs <;> simp

theorem parseStep_retval_config (p : ParserVars) (c : Char)
    (h : ∀ t ∈ p.retval, t.m_config ≠ []) :
    ∀ t ∈ (parseStep p c).retval, t.m_config ≠ [] := by
  obtain ⟨n, k, v, cfg, rv, st⟩ := p
  cases st <;> simp only [parseStep] <;> split_ifs <;> try exact h
  intro t ht
  simp only [List.mem_append, List.mem_singleton] at ht
  rcases ht with ht | ht
  · exact h t ht
  · rw [ht]; exact StdMap.set_ne_nil _ _ _

theorem foldl_parseStep_retval_config (s : Str) (p : ParserVars)
    (h : ∀ t ∈ p.retval, t.m_config ≠ []) :
    ∀ t ∈ (s.foldl parseStep p).retval, t.m_config ≠ [] := by
  induction s generalizing p with
  | nil => exact h
  | cons c s ih => exact ih _ (parseStep_retval_config p c h)

/-- C18: for every address string, each record that `parseTransports` returns
has at least one entry in its option map. -/
theorem parseTransports_config_nonempty (address_str : Str) (t : ParsedTransport)
    (ht : t ∈ parseTransports address_str) : t.m_config ≠ [] := by
  have hinv := foldl_parseStep_retval_config address_str ParserVars.initial
    (by simp [ParserVars.initial])
  unfold parseTransports parseFinish at ht
  simp only at ht
  split_ifs at ht
  · simp only [List.mem_append, List.mem_singleton] at ht
    rcases ht with ht | ht
    · exact hinv t ht
    · rw [ht]; exact StdMap.set_ne_nil _ _ _
  · exact hinv t ht

/-- A witness of C18: the record of the address `unix`, whose option map is
the single entry from the empty key to the empty value. -/
theorem parseTransports_config_nonempty_witness :
    ({ m_transportName := "unix".toList, m_config := [([], [])] } : ParsedTransport).m_config
      ≠ [] :=
  parseTransports_config_nonempty "unix".toList
    { m_transportName := "unix".toList, m_config := [([], [])] } (by decide)

/-! ### The socket address and the open descriptors -/

section

set_option maxRecDepth 8000

/-- C16 fails on the code.  For the address `unix:path=` followed by 120
letters `a`, `open_transport` passes the 120 letters to `open_unix_socket`,
whose `memcpy` then writes 120 bytes from the start of `sun_path`: more than
`sizeof( sun_path ) - 1 = 107`, and more than the 108 bytes of the array. -/
theorem sun_path_copy_exceeds_array :
    openedPaths (open_transport demoSys
      ("unix:path=".toList ++ List.replicate 120 'a') []).log = [List.replicate 120 'a'] ∧
    sun_path_bytes_copied (List.replicate 120 'a') = 120 ∧
    ¬ sun_path_bytes_copied (List.replicate 120 'a') ≤ sun_path_size - 1 ∧
    ¬ sun_path_bytes_copied (List.replicate 120 'a') ≤ sun_path_size := by
  decide

end

/-- C17 fails on the code.  In the example kernel, `open_unix_socket` on the
path `/down` opens descriptor 3, `connect()` fails, and the call returns -1
with descriptor 3 still open; on the path `/a` it then opens descriptor 4,
`setsockopt()` fails, and the call returns -1 with descriptor 4 still open. -/
theorem open_unix_socket_leaves_descriptor :
    open_unix_socket fdSys "/down".toList [] = (-1, [3]) ∧
    open_unix_socket fdSys "/a".toList [3] = (-1, [3, 4]) := by
  decide

end DBus
